import Mathlib

/-!
Shallow embedding of `src/main.rs` (a one-billion-row-challenge style
aggregator) together with proofs about its specification.

Machine integers of the Rust source are modelled as `Int`/`Nat` with the
two's-complement wrap applied exactly where the source performs arithmetic
that can overflow (release-mode Rust wraps on overflow):
  * `i16` values are produced by `wrap16`,
  * the `i32` field `sum` is updated through `wrap32`,
  * the `u32` field `count` is reduced modulo `2 ^ 32`.
-/

/-- `2 ^ 32`, the modulus of the `u32` field `count`. -/
def U32 : Nat := 4294967296

/-- Two's-complement reduction of an integer into the `i16` range. -/
def wrap16 (x : Int) : Int := (x + 32768) % 65536 - 32768

/-- Two's-complement reduction of an integer into the `i32` range. -/
def wrap32 (x : Int) : Int := (x + 2147483648) % 4294967296 - 2147483648

theorem wrap16_lb (x : Int) : -32768 ≤ wrap16 x := by
  have h : 0 ≤ (x + 32768) % 65536 := Int.emod_nonneg _ (by decide)
  unfold wrap16; omega

theorem wrap16_ub (x : Int) : wrap16 x ≤ 32767 := by
  have h : (x + 32768) % 65536 < 65536 := Int.emod_lt_of_pos _ (by decide)
  unfold wrap16; omega

theorem wrap16_eq_self (x : Int) (h1 : -32768 ≤ x) (h2 : x ≤ 32767) :
    wrap16 x = x := by
  unfold wrap16
  rw [Int.emod_eq_of_lt (by omega) (by omega)]
  omega

theorem wrap32_eq_self (x : Int) (h1 : -2147483648 ≤ x) (h2 : x ≤ 2147483647) :
    wrap32 x = x := by
  unfold wrap32
  rw [Int.emod_eq_of_lt (by omega) (by omega)]
  omega

theorem wrap32_add_left (a b : Int) : wrap32 (wrap32 a + b) = wrap32 (a + b) := by
  unfold wrap32
  have h : (a + 2147483648) % 4294967296 - 2147483648 + b + 2147483648
      = (a + 2147483648) % 4294967296 + b := by ring
  rw [h, Int.emod_add_emod]
  have h2 : a + 2147483648 + b = a + b + 2147483648 := by ring
  rw [h2]

theorem wrap32_add_right (a b : Int) : wrap32 (a + wrap32 b) = wrap32 (a + b) := by
  have h1 : a + wrap32 b = wrap32 b + a := by ring
  have h2 : a + b = b + a := by ring
  rw [h1, h2, wrap32_add_left]

/-- The per-station running aggregate from `src/main.rs`:
`struct WeatherStation { min: i16, max: i16, sum: i32, count: u32 }`. -/
structure WeatherStation where
  min : Int
  max : Int
  sum : Int
  count : Nat
  deriving DecidableEq, Repr

namespace WeatherStation

/-- `WeatherStation::new`: sentinels `i16::MAX` / `i16::MIN`, zero sum and count. -/
def new : WeatherStation := ⟨32767, -32768, 0, 0⟩

/-- `WeatherStation::add_measurement`: pointwise min/max, wrapping `i32` sum,
wrapping `u32` count. -/
def add_measurement (ws : WeatherStation) (measurement : Int) : WeatherStation :=
  ⟨Min.min ws.min measurement, Max.max ws.max measurement,
   wrap32 (ws.sum + measurement), (ws.count + 1) % U32⟩

/-- `WeatherStation::merge`: combine two accumulators fieldwise. -/
def merge (ws other : WeatherStation) : WeatherStation :=
  ⟨Min.min ws.min other.min, Max.max ws.max other.max,
   wrap32 (ws.sum + other.sum), (ws.count + other.count) % U32⟩

end WeatherStation

/-- Exact (unwrapped) integer sum of a list of measurements. -/
def intSum (xs : List Int) : Int := xs.foldl (fun a v => a + v) 0

theorem intSum_nil : intSum [] = 0 := rfl

theorem foldl_add_acc (l : List Int) (a : Int) :
    l.foldl (fun x v => x + v) a = a + l.foldl (fun x v => x + v) 0 := by
  induction l generalizing a with
  | nil => simp
  | cons y t ih =>
    rw [List.foldl_cons, List.foldl_cons, ih (a + y), ih (0 + y)]
    ring

theorem intSum_cons (x : Int) (xs : List Int) : intSum (x :: xs) = x + intSum xs := by
  show (x :: xs).foldl (fun a v => a + v) 0 = x + xs.foldl (fun a v => a + v) 0
  rw [List.foldl_cons, foldl_add_acc]
  ring

theorem intSum_append (xs ys : List Int) :
    intSum (xs ++ ys) = intSum xs + intSum ys := by
  induction xs with
  | nil => simp [intSum_nil]
  | cons x t ih => simp only [List.cons_append, intSum_cons, ih]; ring

theorem intSum_replicate (n : Nat) (c : Int) :
    intSum (List.replicate n c) = n * c := by
  induction n with
  | zero => simp [intSum_nil]
  | succ k ih =>
    rw [List.replicate_succ, intSum_cons, ih]
    push_cast
    ring

theorem intSum_bound (xs : List Int) (B : Int)
    (_hB : 0 ≤ B) (h : ∀ v ∈ xs, -B ≤ v ∧ v ≤ B) :
    -(xs.length * B) ≤ intSum xs ∧ intSum xs ≤ xs.length * B := by
  induction xs with
  | nil => simp [intSum_nil]
  | cons x t ih =>
    have hx := h x (by simp)
    have ht := ih (fun v hv => h v (by simp [hv]))
    rw [intSum_cons]
    simp only [List.length_cons]
    push_cast
    constructor <;> nlinarith [ht.1, ht.2, hx.1, hx.2]

namespace WeatherStation

theorem sum_foldl (xs : List Int) (ws : WeatherStation) (s : Int)
    (h : ws.sum = wrap32 s) :
    (List.foldl add_measurement ws xs).sum = wrap32 (s + intSum xs) := by
  induction xs generalizing ws s with
  | nil => simpa [intSum_nil] using h
  | cons x t ih =>
    rw [List.foldl_cons, intSum_cons]
    have hstep : (add_measurement ws x).sum = wrap32 (s + x) := by
      simp only [add_measurement, h]
      rw [wrap32_add_left]
    rw [ih (add_measurement ws x) (s + x) hstep]
    have h2 : s + x + intSum t = s + (x + intSum t) := by ring
    rw [h2]

theorem count_foldl (xs : List Int) (ws : WeatherStation) (c : Nat)
    (h : ws.count = c % U32) :
    (List.foldl add_measurement ws xs).count = (c + xs.length) % U32 := by
  induction xs generalizing ws c with
  | nil => simpa using h
  | cons x t ih =>
    rw [List.foldl_cons]
    have hstep : (add_measurement ws x).count = (c + 1) % U32 := by
      simp only [add_measurement, h, Nat.add_mod_left, Nat.mod_add_mod]
    rw [ih (add_measurement ws x) (c + 1) hstep, List.length_cons]
    have h2 : c + 1 + t.length = c + (t.length + 1) := by omega
    rw [h2]

theorem min_foldl (xs : List Int) (ws : WeatherStation) :
    (List.foldl add_measurement ws xs).min = xs.foldl Min.min ws.min := by
  induction xs generalizing ws with
  | nil => rfl
  | cons x t ih => rw [List.foldl_cons, List.foldl_cons, ih]; rfl

theorem max_foldl (xs : List Int) (ws : WeatherStation) :
    (List.foldl add_measurement ws xs).max = xs.foldl Max.max ws.max := by
  induction xs generalizing ws with
  | nil => rfl
  | cons x t ih => rw [List.foldl_cons, List.foldl_cons, ih]; rfl

end WeatherStation

/-!
## Fixed-point parser (`parse_measurement` in `src/main.rs`)

Bytes are modelled as `Nat` (values `0..255`).  The Rust expression
`(measurement[i] - b'0') as i16` is a wrapping `u8` subtraction followed by a
zero-extension, i.e. `(b + 208) % 256`; the accumulation `value * 10 + d`
is `i16` arithmetic, i.e. `wrap16`.  Indexing `measurement[0]` panics on an
empty slice, modelled by returning `none`.
-/

/-- The parsing loop of `parse_measurement`: skip `'.'` (byte 46), otherwise
`value = value * 10 + (byte - b'0')` in wrapping `i16`/`u8` arithmetic. -/
def parseLoop (bytes : List Nat) (value : Int) : Int :=
  match bytes with
  | [] => value
  | b :: rest =>
    if b = 46 then parseLoop rest value
    else parseLoop rest (wrap16 (value * 10 + (((b + 208) % 256 : Nat) : Int)))

/-- `parse_measurement`: an optional leading `'-'` (byte 45) records the sign,
the loop accumulates the scaled value, and a final `value *= -1` applies the
sign (again wrapping `i16`).  `none` models the panic on an empty slice. -/
def parse_measurement (m : List Nat) : Option Int :=
  match m with
  | [] => none
  | b0 :: rest =>
    if b0 = 45 then some (wrap16 (-(parseLoop rest 0)))
    else some (parseLoop (b0 :: rest) 0)

theorem parseLoop_range (bytes : List Nat) (v : Int)
    (h1 : -32768 ≤ v) (h2 : v ≤ 32767) :
    -32768 ≤ parseLoop bytes v ∧ parseLoop bytes v ≤ 32767 := by
  induction bytes generalizing v with
  | nil => exact ⟨h1, h2⟩
  | cons b rest ih =>
    by_cases hb : b = 46
    · simpa [parseLoop, hb] using ih v h1 h2
    · simp only [parseLoop, hb, if_false]
      exact ih _ (wrap16_lb _) (wrap16_ub _)

theorem parse_measurement_range (m : List Nat) (v : Int)
    (h : parse_measurement m = some v) : -32768 ≤ v ∧ v ≤ 32767 := by
  match m with
  | [] => simp [parse_measurement] at h
  | b0 :: rest =>
    by_cases hb : b0 = 45
    · simp only [parse_measurement, hb, if_pos rfl] at h
      obtain rfl : wrap16 (-(parseLoop rest 0)) = v := by simpa using h
      exact ⟨wrap16_lb _, wrap16_ub _⟩
    · simp only [parse_measurement, hb, if_false] at h
      obtain rfl : parseLoop (b0 :: rest) 0 = v := by simpa using h
      exact parseLoop_range _ 0 (by decide) (by decide)

theorem parseLoop_append (xs ys : List Nat) (v : Int) :
    parseLoop (xs ++ ys) v = parseLoop ys (parseLoop xs v) := by
  induction xs generalizing v with
  | nil => rfl
  | cons b rest ih =>
    by_cases hb : b = 46 <;> simp [parseLoop, hb, ih]

/-- Accumulating value of a string of ASCII digit bytes, most significant first. -/
def digitsValFrom (v : Int) : List Nat → Int
  | [] => v
  | d :: t => digitsValFrom (v * 10 + ((d : Int) - 48)) t

/-- The number denoted by a string of ASCII digit bytes. -/
def digitsVal (ds : List Nat) : Int := digitsValFrom 0 ds

theorem digitsVal_acc (ds : List Nat) (v : Int) :
    digitsValFrom v ds = v * 10 ^ ds.length + digitsVal ds := by
  induction ds generalizing v with
  | nil => simp [digitsVal, digitsValFrom]
  | cons d t ih =>
    show digitsValFrom (v * 10 + ((d : Int) - 48)) t = _
    rw [ih]
    show _ = v * 10 ^ (d :: t).length + digitsValFrom (0 * 10 + ((d : Int) - 48)) t
    rw [ih (0 * 10 + ((d : Int) - 48)), List.length_cons]
    ring

theorem digitsVal_cons (d : Nat) (t : List Nat) :
    digitsVal (d :: t) = ((d : Int) - 48) * 10 ^ t.length + digitsVal t := by
  show digitsValFrom (0 * 10 + ((d : Int) - 48)) t = _
  rw [digitsVal_acc]
  ring

theorem digitsVal_nonneg (ds : List Nat) (h : ∀ d ∈ ds, 48 ≤ d ∧ d ≤ 57) :
    0 ≤ digitsVal ds := by
  induction ds with
  | nil => simp [digitsVal, digitsValFrom]
  | cons d t ih =>
    have hd := h d (by simp)
    have ht := ih (fun x hx => h x (by simp [hx]))
    rw [digitsVal_cons]
    have hp : (0 : Int) < 10 ^ t.length := by positivity
    have hdnn : (0 : Int) ≤ (d : Int) - 48 := by
      have := hd.1
      omega
    nlinarith

theorem digit_byte_sub (d : Nat) (h1 : 48 ≤ d) (h2 : d ≤ 57) :
    (((d + 208) % 256 : Nat) : Int) = (d : Int) - 48 := by
  have h3 : (d + 208) % 256 = d - 48 := by omega
  rw [h3]
  omega

theorem parseLoop_digits (ds : List Nat) (v : Int)
    (hd : ∀ d ∈ ds, 48 ≤ d ∧ d ≤ 57) (hv : 0 ≤ v)
    (hb : v * 10 ^ ds.length + digitsVal ds ≤ 32767) :
    parseLoop ds v = v * 10 ^ ds.length + digitsVal ds := by
  induction ds generalizing v with
  | nil => simp [parseLoop, digitsVal, digitsValFrom]
  | cons d t ih =>
    have hdd := hd d (by simp)
    have hdt : ∀ x ∈ t, 48 ≤ x ∧ x ≤ 57 := fun x hx => hd x (by simp [hx])
    have hne : d ≠ 46 := by omega
    have hsub := digit_byte_sub d hdd.1 hdd.2
    have htnn := digitsVal_nonneg t hdt
    have hp : (1 : Int) ≤ 10 ^ t.length := by
      linarith [pow_pos (show (0 : Int) < 10 by norm_num) t.length]
    have hcons := digitsVal_cons d t
    have hlen : ((d :: t).length : Nat) = t.length + 1 := by simp
    have hbig : (v * 10 + ((d : Int) - 48)) * 10 ^ t.length + digitsVal t
        = v * 10 ^ (d :: t).length + digitsVal (d :: t) := by
      rw [hcons, hlen]
      ring
    have hv2 : 0 ≤ v * 10 + ((d : Int) - 48) := by
      have := hdd.1
      nlinarith
    have hb2 : (v * 10 + ((d : Int) - 48)) * 10 ^ t.length + digitsVal t ≤ 32767 := by
      rw [hbig]; exact hb
    have hsmall : v * 10 + ((d : Int) - 48) ≤ 32767 := by
      nlinarith
    simp only [parseLoop, hne, if_false, hsub]
    rw [wrap16_eq_self _ (by omega) hsmall]
    rw [ih _ hdt hv2 hb2]
    exact hbig

/-- On a grammar-conforming slice whose value is at most `999.9` in magnitude,
the parser produces exactly the signed scaled value. -/
theorem parse_measurement_spec (neg : Bool) (ds : List Nat) (f : Nat)
    (hne : ds ≠ []) (hd : ∀ d ∈ ds, 48 ≤ d ∧ d ≤ 57)
    (hf1 : 48 ≤ f) (hf2 : f ≤ 57)
    (hmag : digitsVal ds * 10 + ((f : Int) - 48) ≤ 9999) :
    parse_measurement ((if neg then [45] else []) ++ (ds ++ [46, f]))
      = some ((if neg then (-1 : Int) else 1) * (digitsVal ds * 10 + ((f : Int) - 48))) := by
  have hdv : 0 ≤ digitsVal ds := digitsVal_nonneg ds hd
  have hdub : digitsVal ds ≤ 999 := by omega
  have hloop : parseLoop (ds ++ [46, f]) 0 = digitsVal ds * 10 + ((f : Int) - 48) := by
    rw [parseLoop_append]
    have h1 : parseLoop ds 0 = digitsVal ds := by
      have := parseLoop_digits ds 0 hd (by omega) (by simpa using hdub.trans (by omega))
      simpa using this
    rw [h1]
    have h46 : (46 : Nat) = 46 := rfl
    show parseLoop [46, f] (digitsVal ds) = _
    have hfne : f ≠ 46 := by omega
    simp only [parseLoop, if_pos rfl, hfne, if_false]
    rw [digit_byte_sub f hf1 hf2]
    exact wrap16_eq_self _ (by omega) (by omega)
  cases neg with
  | true =>
    simp only [if_pos rfl, List.cons_append, List.nil_append]
    show parse_measurement (45 :: (ds ++ [46, f])) = _
    simp only [parse_measurement, if_pos rfl, hloop]
    rw [wrap16_eq_self _ (by omega) (by omega)]
    norm_num
  | false =>
    simp only [Bool.false_eq_true, if_false, List.nil_append]
    match ds, hne with
    | d0 :: dt, _ =>
      have hd0 := hd d0 (by simp)
      have h45 : d0 ≠ 45 := by omega
      show parse_measurement (d0 :: (dt ++ [46, f])) = _
      simp only [parse_measurement, h45, if_false]
      rw [show d0 :: (dt ++ [46, f]) = (d0 :: dt) ++ [46, f] from rfl, hloop]
      norm_num

/-!
## Mapped-file partitioner (`MmappedFile::partition_into_slices`)

The mapped byte content is a `List Nat`.  The byte-search loops of the source
are modelled with an explicit fuel argument equal to the remaining distance to
the end of the data, which makes every definition structurally recursive and
executable; `findByte_unfold` recovers the loop-shaped equation.
-/

/-- Fuel-driven scan: first index `≥ i` whose byte equals `b`, or `data.length`. -/
def findByteAux (data : List Nat) (b : Nat) : Nat → Nat → Nat
  | 0, i => i
  | fuel + 1, i =>
    if i < data.length then
      (if data.getD i 0 = b then i else findByteAux data b fuel (i + 1))
    else i

/-- The `while` loops of the source that advance an index until a given byte
is found (`b';'`, `b'\n'`) or the end of the data is reached. -/
def findByte (data : List Nat) (b : Nat) (i : Nat) : Nat :=
  findByteAux data b (data.length - i) i

theorem findByte_unfold (data : List Nat) (b i : Nat) :
    findByte data b i
      = if i < data.length then
          (if data.getD i 0 = b then i else findByte data b (i + 1))
        else i := by
  by_cases h : i < data.length
  · have he : data.length - i = (data.length - (i + 1)) + 1 := by omega
    rw [findByte, he]
    rfl
  · rw [if_neg h, findByte]
    cases hf : data.length - i with
    | zero => rfl
    | succ k =>
      show (if i < data.length then _ else i) = i
      rw [if_neg h]

theorem findByteAux_ge (data : List Nat) (b : Nat) :
    ∀ fuel i, i ≤ findByteAux data b fuel i := by
  intro fuel
  induction fuel with
  | zero => intro i; exact Nat.le_refl i
  | succ k ih =>
    intro i
    show i ≤ if i < data.length then _ else i
    by_cases h : i < data.length
    · rw [if_pos h]
      by_cases h2 : data.getD i 0 = b
      · rw [if_pos h2]
      · rw [if_neg h2]
        exact Nat.le_trans (Nat.le_succ i) (ih (i + 1))
    · rw [if_neg h]

theorem findByte_ge (data : List Nat) (b i : Nat) : i ≤ findByte data b i :=
  findByteAux_ge data b _ i

theorem findByteAux_le_len (data : List Nat) (b : Nat) :
    ∀ fuel i, i ≤ data.length → findByteAux data b fuel i ≤ data.length := by
  intro fuel
  induction fuel with
  | zero => intro i h; exact h
  | succ k ih =>
    intro i h
    show (if i < data.length then _ else i) ≤ data.length
    by_cases h1 : i < data.length
    · rw [if_pos h1]
      by_cases h2 : data.getD i 0 = b
      · rw [if_pos h2]; exact h
      · rw [if_neg h2]; exact ih (i + 1) h1
    · rw [if_neg h1]; exact h

theorem findByte_le_len (data : List Nat) (b i : Nat) (h : i ≤ data.length) :
    findByte data b i ≤ data.length :=
  findByteAux_le_len data b _ i h

theorem findByte_found (data : List Nat) (b : Nat) :
    ∀ k i, data.length - i = k → findByte data b i < data.length →
      data.getD (findByte data b i) 0 = b := by
  intro k
  induction k with
  | zero =>
    intro i hk hlt
    rw [findByte_unfold] at hlt ⊢
    have h : ¬ i < data.length := by omega
    rw [if_neg h] at hlt
    omega
  | succ m ih =>
    intro i hk hlt
    rw [findByte_unfold] at hlt ⊢
    by_cases h : i < data.length
    · rw [if_pos h] at hlt ⊢
      by_cases h2 : data.getD i 0 = b
      · rw [if_pos h2]; exact h2
      · rw [if_neg h2] at hlt ⊢
        exact ih (i + 1) (by omega) hlt
    · rw [if_neg h] at hlt
      omega

theorem getD_drop (l : List Nat) : ∀ n k, (l.drop n).getD k 0 = l.getD (n + k) 0 := by
  induction l with
  | nil => intro n k; simp
  | cons a t ih =>
    intro n k
    cases n with
    | zero => simp
    | succ m =>
      show (t.drop m).getD k 0 = (a :: t).getD (m + 1 + k) 0
      rw [ih m k]
      have h : m + 1 + k = (m + k) + 1 := by omega
      rw [h]
      rfl

theorem drop_cons_facts (data : List Nat) (pos : Nat) (x : Nat) (t : List Nat)
    (h : data.drop pos = x :: t) :
    pos < data.length ∧ data.getD pos 0 = x ∧ data.drop (pos + 1) = t := by
  have hlen : (data.drop pos).length = data.length - pos := List.length_drop pos data
  rw [h] at hlen
  have hpos : pos < data.length := by
    simp only [List.length_cons] at hlen
    omega
  refine ⟨hpos, ?_, ?_⟩
  · have := getD_drop data pos 0
    rw [h] at this
    simpa using this.symm
  · have h1 : data.drop (pos + 1) = (data.drop pos).drop 1 := by
      rw [List.drop_drop]
    rw [h1, h]
    rfl

theorem findByte_frontier (data : List Nat) (b : Nat) :
    ∀ (pre : List Nat) (suf : List Nat) (pos : Nat),
      data.drop pos = pre ++ b :: suf → (∀ x ∈ pre, x ≠ b) →
      findByte data b pos = pos + pre.length := by
  intro pre
  induction pre with
  | nil =>
    intro suf pos h _
    simp only [List.nil_append] at h
    obtain ⟨h1, h2, _⟩ := drop_cons_facts data pos b suf h
    rw [findByte_unfold, if_pos h1, if_pos h2]
    simp
  | cons a t ih =>
    intro suf pos h hne
    simp only [List.cons_append] at h
    obtain ⟨h1, h2, h3⟩ := drop_cons_facts data pos a (t ++ b :: suf) h
    have ha : a ≠ b := hne a (by simp)
    rw [findByte_unfold, if_pos h1, h2, if_neg ha, ih suf (pos + 1) h3
      (fun x hx => hne x (by simp [hx]))]
    simp only [List.length_cons]
    omega

theorem findByte_none (data : List Nat) (b : Nat) :
    ∀ (l : List Nat) (pos : Nat), pos ≤ data.length → data.drop pos = l →
      (∀ x ∈ l, x ≠ b) → findByte data b pos = data.length := by
  intro l
  induction l with
  | nil =>
    intro pos hle h _
    have hlen : (data.drop pos).length = data.length - pos := List.length_drop pos data
    rw [h] at hlen
    simp only [List.length_nil] at hlen
    have : pos = data.length := by omega
    rw [findByte_unfold, if_neg (by omega)]
    exact this
  | cons a t ih =>
    intro pos hle h hne
    obtain ⟨h1, h2, h3⟩ := drop_cons_facts data pos a t h
    rw [findByte_unfold, if_pos h1, h2, if_neg (hne a (by simp))]
    exact ih (pos + 1) h1 h3 (fun x hx => hne x (by simp [hx]))

/-- The newline-advance loop of `partition_into_slices`: starting from the
candidate boundary, move past the next `\n` (byte 10); if none remains, stop
at the end of the data. -/
def scanNewlineEnd (data : List Nat) (c : Nat) : Nat :=
  if findByte data 10 c < data.length then findByte data 10 c + 1
  else findByte data 10 c

theorem scanNewlineEnd_ge (data : List Nat) (c : Nat) : c ≤ scanNewlineEnd data c := by
  have := findByte_ge data 10 c
  unfold scanNewlineEnd
  by_cases h : findByte data 10 c < data.length
  · rw [if_pos h]; omega
  · rw [if_neg h]; omega

theorem scanNewlineEnd_le_len (data : List Nat) (c : Nat) (h : c ≤ data.length) :
    scanNewlineEnd data c ≤ data.length := by
  have := findByte_le_len data 10 c h
  unfold scanNewlineEnd
  by_cases h2 : findByte data 10 c < data.length
  · rw [if_pos h2]; omega
  · rw [if_neg h2]; omega

theorem scanNewlineEnd_gt (data : List Nat) (c : Nat) (h : c < data.length) :
    c + 1 ≤ scanNewlineEnd data c := by
  have h1 := findByte_ge data 10 c
  have h2 := findByte_le_len data 10 c (Nat.le_of_lt h)
  unfold scanNewlineEnd
  by_cases h3 : findByte data 10 c < data.length
  · rw [if_pos h3]; omega
  · rw [if_neg h3]; omega

theorem scanNewlineEnd_spec (data : List Nat) (c : Nat) (h : c ≤ data.length) :
    scanNewlineEnd data c = data.length ∨
      (c < scanNewlineEnd data c ∧ data.getD (scanNewlineEnd data c - 1) 0 = 10) := by
  by_cases h2 : findByte data 10 c < data.length
  · right
    have hfound := findByte_found data 10 (data.length - c) c rfl h2
    have hge := findByte_ge data 10 c
    unfold scanNewlineEnd
    rw [if_pos h2]
    constructor
    · omega
    · simpa using hfound
  · left
    have := findByte_le_len data 10 c h
    unfold scanNewlineEnd
    rw [if_neg h2]
    omega

/-- One `(start, end)` pair per requested partition, as computed by the
`for _ in 0..num_partitions` loop of `partition_into_slices`. -/
def partitionEnds (data : List Nat) (psize : Nat) : Nat → Nat → List (Nat × Nat)
  | 0, _ => []
  | k + 1, start =>
    let e := scanNewlineEnd data (Min.min (start + psize) data.length)
    (start, e) :: partitionEnds data psize k e

/-- `MmappedFile::partition_into_slices`: even split `len / n`, each boundary
advanced past the next newline, slices materialised from the mapped bytes. -/
def partition_into_slices (data : List Nat) (num_partitions : Nat) : List (List Nat) :=
  (partitionEnds data (data.length / num_partitions) num_partitions 0).map
    (fun p => (data.drop p.1).take (p.2 - p.1))

theorem partitionEnds_length (data : List Nat) (psize : Nat) :
    ∀ k start, (partitionEnds data psize k start).length = k := by
  intro k
  induction k with
  | zero => intro start; rfl
  | succ m ih => intro start; simp [partitionEnds, ih]

/-- Contiguity: the recorded pairs chain together starting from `start`. -/
def chainFrom : Nat → List (Nat × Nat) → Bool
  | _, [] => true
  | s, p :: rest => decide (p.1 = s) && chainFrom p.2 rest

theorem partitionEnds_chain (data : List Nat) (psize : Nat) :
    ∀ k start, chainFrom start (partitionEnds data psize k start) = true := by
  intro k
  induction k with
  | zero => intro start; rfl
  | succ m ih =>
    intro start
    simp [partitionEnds, chainFrom, ih]

theorem partitionEnds_bounds (data : List Nat) (psize : Nat) :
    ∀ k start, start ≤ data.length →
      ∀ p ∈ partitionEnds data psize k start,
        p.1 ≤ p.2 ∧ p.2 ≤ data.length ∧
          (p.2 = data.length ∨ (0 < p.2 ∧ data.getD (p.2 - 1) 0 = 10)) := by
  intro k
  induction k with
  | zero => intro start _ p hp; simp [partitionEnds] at hp
  | succ m ih =>
    intro start hstart p hp
    simp only [partitionEnds, List.mem_cons] at hp
    have hc : Min.min (start + psize) data.length ≤ data.length := Nat.min_le_right _ _
    have hcs : start ≤ Min.min (start + psize) data.length := by
      have : start ≤ start + psize := Nat.le_add_right _ _
      omega
    have hge := scanNewlineEnd_ge data (Min.min (start + psize) data.length)
    have hle := scanNewlineEnd_le_len data (Min.min (start + psize) data.length) hc
    rcases hp with heq | hmem
    · subst heq
      refine ⟨by simpa using Nat.le_trans hcs hge, hle, ?_⟩
      rcases scanNewlineEnd_spec data _ hc with h | ⟨hgt, hnl⟩
      · left; exact h
      · right; exact ⟨by omega, hnl⟩
    · exact ih _ hle p hmem

theorem partitionEnds_flatten (data : List Nat) (psize : Nat) :
    ∀ k start, start ≤ data.length →
      data.length ≤ start + k * psize + (k - 1) →
      (((partitionEnds data psize k start).map
          (fun p => (data.drop p.1).take (p.2 - p.1))).flatten)
        = data.drop start := by
  intro k
  induction k with
  | zero =>
    intro start h1 h2
    simp only [Nat.zero_mul, Nat.zero_sub, Nat.add_zero] at h2
    have : start = data.length := by omega
    subst this
    simp [partitionEnds, List.drop_eq_nil_of_le (Nat.le_refl _)]
  | succ m ih =>
    intro start h1 h2
    set c := Min.min (start + psize) data.length with hc
    set e := scanNewlineEnd data c with he
    have hcle : c ≤ data.length := Nat.min_le_right _ _
    have hcs : start ≤ c := by
      have : start ≤ start + psize := Nat.le_add_right _ _
      simp only [hc]
      omega
    have hele : e ≤ data.length := scanNewlineEnd_le_len data c hcle
    have hse : start ≤ e := Nat.le_trans hcs (scanNewlineEnd_ge data c)
    have hnext : data.length ≤ e + m * psize + (m - 1) := by
      by_cases hclamp : start + psize < data.length
      · have hceq : c = start + psize := by simp only [hc]; omega
        have hgt : c + 1 ≤ e := scanNewlineEnd_gt data c (by omega)
        have hexp : (m + 1) * psize = m * psize + psize := Nat.succ_mul m psize
        rw [hexp] at h2
        omega
      · have hceq : c = data.length := by simp only [hc]; omega
        have : c ≤ e := scanNewlineEnd_ge data c
        omega
    show ((data.drop start).take (e - start)
        ++ ((partitionEnds data psize m e).map
            (fun p => (data.drop p.1).take (p.2 - p.1))).flatten)
      = data.drop start
    rw [ih e hele hnext]
    have hdd : data.drop e = (data.drop start).drop (e - start) := by
      rw [List.drop_drop]
      have h3 : start + (e - start) = e := by omega
      rw [h3]
    rw [hdd]
    exact List.take_append_drop _ _

/-!
## Partition scanner (`thread_runner`)

The `HashMap<&[u8], WeatherStation>` is modelled extensionally as a function
from station-name byte sequences to optional accumulators.  The record loop of
`thread_runner` is modelled with fuel equal to the remaining distance to the
end of the slice; since the cursor advances by at least two positions per
iteration, this fuel never runs out (`scanSliceAux_irrel` below), and
`scanSlice_unfold` recovers the loop-shaped equation.  A `none` result models
a panic (an out-of-bounds slice index inside the loop), which cannot happen on
well-formed input.
-/

/-- A station table: the per-scan `HashMap`, modelled extensionally. -/
def Table : Type := List Nat → Option WeatherStation

def emptyTable : Table := fun _ => none

/-- `stations.entry(name).or_insert_with(WeatherStation::new)` followed by
`add_measurement(measurement)`. -/
def tableAdd (tbl : Table) (name : List Nat) (m : Int) : Table :=
  fun k =>
    if k = name then
      some (WeatherStation.add_measurement ((tbl name).getD WeatherStation.new) m)
    else tbl k

/-- The record loop of `thread_runner`, fuel-driven.  Each iteration finds the
`';'` ending the name, the `'\n'` (or end of slice) ending the value, parses
the value, stores the measurement, and continues past the newline. -/
def scanSliceAux (data : List Nat) : Nat → Table → Nat → Option Table
  | 0, tbl, _ => some tbl
  | fuel + 1, tbl, pos =>
    if pos < data.length then
      (if findByte data 59 pos + 1 ≤ data.length then
        (match parse_measurement ((data.drop (findByte data 59 pos + 1)).take
            (findByte data 10 (findByte data 59 pos + 1) - (findByte data 59 pos + 1))) with
         | none => none
         | some m =>
             scanSliceAux data fuel
               (tableAdd tbl ((data.drop pos).take (findByte data 59 pos - pos)) m)
               (findByte data 10 (findByte data 59 pos + 1) + 1))
      else none)
    else some tbl

def scanSlice (data : List Nat) (tbl : Table) (pos : Nat) : Option Table :=
  scanSliceAux data (data.length - pos) tbl pos

/-- `thread_runner`: scan one slice starting from an empty table. -/
def thread_runner (data : List Nat) : Option Table :=
  scanSlice data emptyTable 0

theorem scanSliceAux_stop (data : List Nat) (tbl : Table) (pos : Nat)
    (h : data.length ≤ pos) :
    ∀ fuel, scanSliceAux data fuel tbl pos = some tbl := by
  intro fuel
  cases fuel with
  | zero => rfl
  | succ k =>
    show (if pos < data.length then _ else some tbl) = some tbl
    rw [if_neg (by omega)]

theorem scanSliceAux_irrel (data : List Nat) :
    ∀ f1 f2 (tbl : Table) (pos : Nat),
      data.length ≤ pos + f1 → data.length ≤ pos + f2 →
      scanSliceAux data f1 tbl pos = scanSliceAux data f2 tbl pos := by
  intro f1
  induction f1 with
  | zero =>
    intro f2 tbl pos h1 _
    rw [scanSliceAux_stop data tbl pos (by omega), scanSliceAux_stop data tbl pos (by omega)]
  | succ g ih =>
    intro f2 tbl pos h1 h2
    by_cases hpos : pos < data.length
    · cases f2 with
      | zero =>
        have : data.length ≤ pos := by omega
        omega
      | succ h =>
        show (if pos < data.length then _ else some tbl)
            = (if pos < data.length then _ else some tbl)
        rw [if_pos hpos, if_pos hpos]
        have hne := findByte_ge data 59 pos
        have hve := findByte_ge data 10 (findByte data 59 pos + 1)
        by_cases hvs : findByte data 59 pos + 1 ≤ data.length
        · rw [if_pos hvs, if_pos hvs]
          cases hm : parse_measurement ((data.drop (findByte data 59 pos + 1)).take
              (findByte data 10 (findByte data 59 pos + 1) - (findByte data 59 pos + 1))) with
          | none => rfl
          | some m =>
            exact ih h _ _ (by omega) (by omega)
        · rw [if_neg hvs, if_neg hvs]
    · rw [scanSliceAux_stop data tbl pos (by omega), scanSliceAux_stop data tbl pos (by omega)]

theorem scanSlice_unfold (data : List Nat) (tbl : Table) (pos : Nat) :
    scanSlice data tbl pos
      = if pos < data.length then
          (if findByte data 59 pos + 1 ≤ data.length then
            (match parse_measurement ((data.drop (findByte data 59 pos + 1)).take
                (findByte data 10 (findByte data 59 pos + 1) - (findByte data 59 pos + 1))) with
             | none => none
             | some m =>
                 scanSlice data
                   (tableAdd tbl ((data.drop pos).take (findByte data 59 pos - pos)) m)
                   (findByte data 10 (findByte data 59 pos + 1) + 1))
          else none)
        else some tbl := by
  by_cases hpos : pos < data.length
  · rw [if_pos hpos]
    have hfe : data.length - pos = (data.length - (pos + 1)) + 1 := by omega
    rw [scanSlice, hfe]
    show (if pos < data.length then _ else some tbl) = _
    rw [if_pos hpos]
    have hne := findByte_ge data 59 pos
    have hve := findByte_ge data 10 (findByte data 59 pos + 1)
    by_cases hvs : findByte data 59 pos + 1 ≤ data.length
    · rw [if_pos hvs, if_pos hvs]
      cases hm : parse_measurement ((data.drop (findByte data 59 pos + 1)).take
          (findByte data 10 (findByte data 59 pos + 1) - (findByte data 59 pos + 1))) with
      | none => rfl
      | some m =>
        exact scanSliceAux_irrel data _ _ _ _ (by omega) (by omega)
    · rw [if_neg hvs, if_neg hvs]
  · rw [if_neg hpos, scanSlice, scanSliceAux_stop data tbl pos (by omega)]

/-!
## Well-formed record streams

A well-formed input (spec §6) is a concatenation of `name;value\n` records:
names contain neither `';'` nor `'\n'`, values contain no `'\n'` and are
non-empty.
-/

structure StationRecord where
  name : List Nat
  val : List Nat
  deriving DecidableEq, Repr

/-- Byte encoding `name ++ ";" ++ value ++ "\n"` of one record. -/
def encodeRecord (r : StationRecord) : List Nat :=
  r.name ++ 59 :: (r.val ++ [10])

/-- Byte encoding of a whole record stream. -/
def encodeRecords (rs : List StationRecord) : List Nat :=
  (rs.map encodeRecord).flatten

/-- Validity of a record: the name avoids `';'` and `'\n'`, the value avoids
`'\n'` and is non-empty. -/
def validRecord (r : StationRecord) : Bool :=
  (r.name.all fun b => !(b == 59) && !(b == 10)) &&
    ((r.val.all fun b => !(b == 10)) && !(r.val.isEmpty))

theorem validRecord_facts (r : StationRecord) (h : validRecord r = true) :
    (∀ b ∈ r.name, b ≠ 59) ∧ (∀ b ∈ r.name, b ≠ 10) ∧
      (∀ b ∈ r.val, b ≠ 10) ∧ r.val ≠ [] := by
  simp only [validRecord, Bool.and_eq_true, List.all_eq_true, Bool.and_eq_true,
    Bool.not_eq_true', beq_eq_false_iff_ne, ne_eq, Bool.not_eq_true,
    List.isEmpty_eq_false] at h
  obtain ⟨hname, hval, hemp⟩ := h
  exact ⟨fun b hb => (hname b hb).1, fun b hb => (hname b hb).2, hval,
    by simpa using hemp⟩

theorem encodeRecords_nil : encodeRecords [] = [] := rfl

theorem encodeRecords_cons (r : StationRecord) (rs : List StationRecord) :
    encodeRecords (r :: rs) = encodeRecord r ++ encodeRecords rs := by
  simp [encodeRecords]

theorem encodeRecords_append (rs1 rs2 : List StationRecord) :
    encodeRecords (rs1 ++ rs2) = encodeRecords rs1 ++ encodeRecords rs2 := by
  simp [encodeRecords]

theorem encodeRecord_ne_nil (r : StationRecord) : encodeRecord r ≠ [] := by
  simp [encodeRecord]

theorem encodeRecords_eq_nil (rs : List StationRecord)
    (h : encodeRecords rs = []) : rs = [] := by
  cases rs with
  | nil => rfl
  | cons r t =>
    rw [encodeRecords_cons] at h
    have := encodeRecord_ne_nil r
    simp only [List.append_eq_nil] at h
    exact absurd h.1 this

theorem encodeRecord_length (r : StationRecord) :
    (encodeRecord r).length = r.name.length + r.val.length + 2 := by
  simp [encodeRecord]
  omega

theorem parse_measurement_isSome (v : List Nat) (h : v ≠ []) :
    ∃ m, parse_measurement v = some m := by
  cases v with
  | nil => exact absurd rfl h
  | cons b0 rest =>
    by_cases hb : b0 = 45 <;> simp [parse_measurement, hb]

theorem drop_append_of_drop (data : List Nat) :
    ∀ (A B : List Nat) (pos : Nat), data.drop pos = A ++ B →
      data.drop (pos + A.length) = B := by
  intro A
  induction A with
  | nil => intro B pos h; simpa using h
  | cons a T ih =>
    intro B pos h
    simp only [List.cons_append] at h
    obtain ⟨_, _, h3⟩ := drop_cons_facts data pos a (T ++ B) h
    have := ih B (pos + 1) h3
    simp only [List.length_cons]
    have harr : pos + (T.length + 1) = pos + 1 + T.length := by omega
    rw [harr]
    exact this

theorem take_of_drop_append (data : List Nat) (A B : List Nat) (pos : Nat)
    (h : data.drop pos = A ++ B) : (data.drop pos).take A.length = A := by
  rw [h]
  exact List.take_left A B

/-- One application of the scanner loop body at the record level. -/
def recStep (tbl : Table) (r : StationRecord) : Table :=
  tableAdd tbl r.name ((parse_measurement r.val).getD 0)

/-- Scanning a slice that is a well-formed record stream succeeds and computes
the left fold of `recStep` over the records. -/
theorem scanSlice_records (data : List Nat) :
    ∀ (rs : List StationRecord) (tbl : Table) (pos : Nat),
      pos ≤ data.length → data.drop pos = encodeRecords rs →
      (∀ r ∈ rs, validRecord r = true) →
      scanSlice data tbl pos = some (rs.foldl recStep tbl) := by
  intro rs
  induction rs with
  | nil =>
    intro tbl pos hle hdrop _
    rw [encodeRecords_nil] at hdrop
    have hlen : (data.drop pos).length = data.length - pos := List.length_drop pos data
    rw [hdrop] at hlen
    simp only [List.length_nil] at hlen
    rw [scanSlice_unfold, if_neg (by omega)]
    rfl
  | cons r rest ih =>
    intro tbl pos hle hdrop hvalid
    obtain ⟨hn59, hn10, hv10, hvne⟩ := validRecord_facts r (hvalid r (by simp))
    rw [encodeRecords_cons] at hdrop
    have hshape : data.drop pos
        = r.name ++ 59 :: (r.val ++ 10 :: encodeRecords rest) := by
      rw [hdrop, encodeRecord]
      simp
    -- the ';' position
    have hfind1 : findByte data 59 pos = pos + r.name.length :=
      findByte_frontier data 59 r.name (r.val ++ 10 :: encodeRecords rest) pos hshape hn59
    -- the name slice
    have hname : (data.drop pos).take (findByte data 59 pos - pos) = r.name := by
      rw [hfind1]
      have harr : pos + r.name.length - pos = r.name.length := by omega
      rw [harr]
      exact take_of_drop_append data r.name _ pos hshape
    -- cursor past the ';'
    have hdrop1 : data.drop (pos + r.name.length)
        = 59 :: (r.val ++ 10 :: encodeRecords rest) :=
      drop_append_of_drop data r.name _ pos hshape
    obtain ⟨hlt1, _, hdrop2⟩ := drop_cons_facts data (pos + r.name.length) 59 _ hdrop1
    have hpos : pos < data.length := by omega
    have hvs : findByte data 59 pos + 1 ≤ data.length := by
      rw [hfind1]; omega
    -- the '\n' position
    have hvsval : pos + r.name.length + 1 = findByte data 59 pos + 1 := by rw [hfind1]
    have hfind2 : findByte data 10 (findByte data 59 pos + 1)
        = (findByte data 59 pos + 1) + r.val.length := by
      rw [← hvsval]
      exact findByte_frontier data 10 r.val (encodeRecords rest) _ hdrop2 hv10
    -- the value slice
    have hval : (data.drop (findByte data 59 pos + 1)).take
        (findByte data 10 (findByte data 59 pos + 1) - (findByte data 59 pos + 1))
        = r.val := by
      rw [hfind2]
      have harr : findByte data 59 pos + 1 + r.val.length - (findByte data 59 pos + 1)
          = r.val.length := by omega
      rw [harr, ← hvsval]
      exact take_of_drop_append data r.val _ _ hdrop2
    -- parsing the value succeeds
    obtain ⟨m, hm⟩ := parse_measurement_isSome r.val hvne
    -- cursor past the '\n'
    have hdrop3 : data.drop (pos + r.name.length + 1 + r.val.length)
        = 10 :: encodeRecords rest := by
      exact drop_append_of_drop data r.val (10 :: encodeRecords rest)
        (pos + r.name.length + 1) hdrop2
    obtain ⟨hlt3, _, hdrop4⟩ :=
      drop_cons_facts data (pos + r.name.length + 1 + r.val.length) _ _ hdrop3
    have hnext : findByte data 10 (findByte data 59 pos + 1) + 1
        = pos + r.name.length + 1 + r.val.length + 1 := by
      rw [hfind2, hfind1]
    -- assemble one unfolding of the loop
    rw [scanSlice_unfold, if_pos hpos, if_pos hvs, hval, hm]
    show scanSlice data (tableAdd tbl ((data.drop pos).take (findByte data 59 pos - pos)) m)
        (findByte data 10 (findByte data 59 pos + 1) + 1) = _
    rw [hname, hnext]
    have hstep : tableAdd tbl r.name m = recStep tbl r := by
      rw [recStep, hm]
      rfl
    rw [hstep]
    rw [ih (recStep tbl r) (pos + r.name.length + 1 + r.val.length + 1) (by omega) hdrop4
      (fun x hx => hvalid x (by simp [hx]))]
    rfl


/-- One iteration of the scanner loop consumes exactly one whole encoded
record, whatever bytes follow it. -/
theorem scanSlice_step (data : List Nat) (r : StationRecord) (E : List Nat)
    (tbl : Table) (pos : Nat) (hpos0 : pos ≤ data.length)
    (hdrop : data.drop pos = encodeRecord r ++ E)
    (hvr : validRecord r = true) :
    scanSlice data tbl pos
        = scanSlice data (recStep tbl r) (pos + (encodeRecord r).length)
      ∧ pos + (encodeRecord r).length ≤ data.length
      ∧ data.drop (pos + (encodeRecord r).length) = E := by
  obtain ⟨hn59, hn10, hv10, hvne⟩ := validRecord_facts r hvr
  have hshape : data.drop pos = r.name ++ 59 :: (r.val ++ 10 :: E) := by
    rw [hdrop, encodeRecord]
    simp
  have hfind1 : findByte data 59 pos = pos + r.name.length :=
    findByte_frontier data 59 r.name (r.val ++ 10 :: E) pos hshape hn59
  have hname : (data.drop pos).take (findByte data 59 pos - pos) = r.name := by
    rw [hfind1]
    have harr : pos + r.name.length - pos = r.name.length := by omega
    rw [harr]
    exact take_of_drop_append data r.name _ pos hshape
  have hdrop1 : data.drop (pos + r.name.length) = 59 :: (r.val ++ 10 :: E) :=
    drop_append_of_drop data r.name _ pos hshape
  obtain ⟨hlt1, _, hdrop2⟩ := drop_cons_facts data (pos + r.name.length) 59 _ hdrop1
  have hpos : pos < data.length := by omega
  have hvs : findByte data 59 pos + 1 ≤ data.length := by
    rw [hfind1]; omega
  have hvsval : pos + r.name.length + 1 = findByte data 59 pos + 1 := by rw [hfind1]
  have hfind2 : findByte data 10 (findByte data 59 pos + 1)
      = (findByte data 59 pos + 1) + r.val.length := by
    rw [← hvsval]
    exact findByte_frontier data 10 r.val E _ hdrop2 hv10
  have hval : (data.drop (findByte data 59 pos + 1)).take
      (findByte data 10 (findByte data 59 pos + 1) - (findByte data 59 pos + 1))
      = r.val := by
    rw [hfind2]
    have harr : findByte data 59 pos + 1 + r.val.length - (findByte data 59 pos + 1)
        = r.val.length := by omega
    rw [harr, ← hvsval]
    exact take_of_drop_append data r.val _ _ hdrop2
  obtain ⟨m, hm⟩ := parse_measurement_isSome r.val hvne
  have hdrop3 : data.drop (pos + r.name.length + 1 + r.val.length) = 10 :: E :=
    drop_append_of_drop data r.val (10 :: E) (pos + r.name.length + 1) hdrop2
  obtain ⟨hlt3, _, hdrop4⟩ :=
    drop_cons_facts data (pos + r.name.length + 1 + r.val.length) _ _ hdrop3
  have hnext : findByte data 10 (findByte data 59 pos + 1) + 1
      = pos + r.name.length + 1 + r.val.length + 1 := by
    rw [hfind2, hfind1]
  have hlen : pos + (encodeRecord r).length
      = pos + r.name.length + 1 + r.val.length + 1 := by
    rw [encodeRecord_length]
    omega
  refine ⟨?_, by omega, by rw [hlen]; exact hdrop4⟩
  rw [scanSlice_unfold, if_pos hpos, if_pos hvs, hval, hm]
  show scanSlice data (tableAdd tbl ((data.drop pos).take (findByte data 59 pos - pos)) m)
      (findByte data 10 (findByte data 59 pos + 1) + 1) = _
  rw [hname, hnext, hlen]
  have hstep : tableAdd tbl r.name m = recStep tbl r := by
    rw [recStep, hm]
    rfl
  rw [hstep]

/-- Scanning a slice of whole records whose final record omits the trailing
newline also succeeds: the value scan of the last record stops at the end of
the slice, and the cursor then leaves the loop. -/
theorem scanSlice_isSome_tail (data : List Nat) :
    ∀ (rs : List StationRecord) (lastRec : StationRecord) (tbl : Table) (pos : Nat),
      pos ≤ data.length →
      data.drop pos = encodeRecords rs ++ (lastRec.name ++ 59 :: lastRec.val) →
      (∀ x ∈ rs, validRecord x = true) → validRecord lastRec = true →
      (scanSlice data tbl pos).isSome = true := by
  intro rs
  induction rs with
  | nil =>
    intro lastRec tbl pos hle hdrop hvalid hlast
    obtain ⟨hn59, hn10, hv10, hvne⟩ := validRecord_facts lastRec hlast
    rw [encodeRecords_nil, List.nil_append] at hdrop
    have hfind1 : findByte data 59 pos = pos + lastRec.name.length :=
      findByte_frontier data 59 lastRec.name lastRec.val pos hdrop hn59
    have hdrop1 : data.drop (pos + lastRec.name.length) = 59 :: lastRec.val :=
      drop_append_of_drop data lastRec.name _ pos hdrop
    obtain ⟨hlt1, _, hdrop2⟩ := drop_cons_facts data (pos + lastRec.name.length) 59 _ hdrop1
    have hpos : pos < data.length := by omega
    have hvs : findByte data 59 pos + 1 ≤ data.length := by
      rw [hfind1]; omega
    have hvsval : pos + lastRec.name.length + 1 = findByte data 59 pos + 1 := by
      rw [hfind1]
    have hfind2 : findByte data 10 (findByte data 59 pos + 1) = data.length := by
      rw [← hvsval]
      exact findByte_none data 10 lastRec.val (pos + lastRec.name.length + 1)
        (by omega) hdrop2 hv10
    have hlenval : (data.drop (pos + lastRec.name.length + 1)).length
        = data.length - (pos + lastRec.name.length + 1) :=
      List.length_drop _ _
    rw [hdrop2] at hlenval
    have hval : (data.drop (findByte data 59 pos + 1)).take
        (findByte data 10 (findByte data 59 pos + 1) - (findByte data 59 pos + 1))
        = lastRec.val := by
      rw [hfind2, ← hvsval]
      have harr : data.length - (pos + lastRec.name.length + 1) = lastRec.val.length := by
        omega
      rw [harr, hdrop2]
      exact List.take_length lastRec.val
    obtain ⟨m, hm⟩ := parse_measurement_isSome lastRec.val hvne
    rw [scanSlice_unfold, if_pos hpos, if_pos hvs, hval, hm]
    show (scanSlice data
        (tableAdd tbl ((data.drop pos).take (findByte data 59 pos - pos)) m)
        (findByte data 10 (findByte data 59 pos + 1) + 1)).isSome = true
    rw [hfind2, scanSlice, scanSliceAux_stop data _ _ (by omega)]
    rfl
  | cons r rest ih =>
    intro lastRec tbl pos hle hdrop hvalid hlast
    rw [encodeRecords_cons, List.append_assoc] at hdrop
    obtain ⟨hstep, hle2, hdrop2⟩ := scanSlice_step data r
      (encodeRecords rest ++ (lastRec.name ++ 59 :: lastRec.val)) tbl pos hle hdrop
      (hvalid r (by simp))
    rw [hstep]
    exact ih lastRec (recStep tbl r) _ hle2 hdrop2
      (fun x hx => hvalid x (by simp [hx])) hlast

/-!
## Cross-partition merge (table union semantics, spec §5)
-/

/-- Per-key merge of two tables: a station present in both gets the `merge`
of its two accumulators, a station present in one keeps its accumulator. -/
def mergeTables (t u : Table) : Table := fun k =>
  match t k, u k with
  | none, v => v
  | some a, none => some a
  | some a, some b => some (a.merge b)

/-- Merge of optional tables; `none` (a panicked scan) propagates. -/
def mergeOpt (a b : Option Table) : Option Table :=
  match a, b with
  | some x, some y => some (mergeTables x y)
  | _, _ => none

theorem WeatherStation.merge_comm (a b : WeatherStation) :
    a.merge b = b.merge a := by
  simp only [WeatherStation.merge, WeatherStation.mk.injEq]
  refine ⟨min_comm _ _, max_comm _ _, by rw [Int.add_comm], by rw [Nat.add_comm]⟩

theorem WeatherStation.merge_assoc (a b c : WeatherStation) :
    (a.merge b).merge c = a.merge (b.merge c) := by
  simp only [WeatherStation.merge, WeatherStation.mk.injEq]
  refine ⟨min_assoc _ _ _, max_assoc _ _ _, ?_, ?_⟩
  · rw [wrap32_add_left, wrap32_add_right, Int.add_assoc]
  · simp only [U32]
    omega

theorem mergeTables_empty_left (u : Table) : mergeTables emptyTable u = u := by
  funext k
  rfl

theorem mergeTables_empty_right (t : Table) : mergeTables t emptyTable = t := by
  funext k
  show (match t k, (none : Option WeatherStation) with
    | none, v => v
    | some a, none => some a
    | some a, some b => some (a.merge b)) = t k
  cases t k <;> rfl

theorem mergeTables_comm (t u : Table) : mergeTables t u = mergeTables u t := by
  funext k
  rcases ht : t k with _ | a <;> rcases hu : u k with _ | b <;>
    simp [mergeTables, ht, hu, WeatherStation.merge_comm]

theorem mergeTables_assoc (t u w : Table) :
    mergeTables (mergeTables t u) w = mergeTables t (mergeTables u w) := by
  funext k
  rcases ht : t k with _ | a <;> rcases hu : u k with _ | b <;>
    rcases hw : w k with _ | c <;>
    simp [mergeTables, ht, hu, hw, WeatherStation.merge_assoc]

theorem WeatherStation.add_merge (a b : WeatherStation) (m : Int) :
    (a.merge b).add_measurement m = a.merge (b.add_measurement m) := by
  simp only [WeatherStation.merge, WeatherStation.add_measurement,
    WeatherStation.mk.injEq]
  refine ⟨min_assoc _ _ _, max_assoc _ _ _, ?_, ?_⟩
  · rw [wrap32_add_left, wrap32_add_right, Int.add_assoc]
  · simp only [U32]
    omega

theorem WeatherStation.merge_new_add (a : WeatherStation) (m : Int)
    (h1 : -32768 ≤ m) (h2 : m ≤ 32767) :
    a.merge (WeatherStation.new.add_measurement m) = a.add_measurement m := by
  simp only [WeatherStation.merge, WeatherStation.add_measurement,
    WeatherStation.new, WeatherStation.mk.injEq]
  refine ⟨?_, ?_, ?_, ?_⟩
  · rw [min_eq_right h2]
  · rw [max_eq_right h1]
  · rw [Int.zero_add, wrap32_add_right]
  · simp only [U32]

theorem tableAdd_mergeTables (t u : Table) (nm : List Nat) (m : Int)
    (h1 : -32768 ≤ m) (h2 : m ≤ 32767) :
    tableAdd (mergeTables t u) nm m = mergeTables t (tableAdd u nm m) := by
  funext k
  by_cases hk : k = nm
  · subst hk
    rcases ht : t k with _ | a <;> rcases hu : u k with _ | b <;>
      simp [tableAdd, mergeTables, ht, hu, WeatherStation.add_merge,
        WeatherStation.merge_new_add _ m h1 h2]
  · rcases ht : t k with _ | a <;>
      simp [tableAdd, mergeTables, ht, hk]

theorem recStep_val_range (r : StationRecord) :
    -32768 ≤ (parse_measurement r.val).getD 0 ∧ (parse_measurement r.val).getD 0 ≤ 32767 := by
  cases hm : parse_measurement r.val with
  | none => simp
  | some m =>
    have := parse_measurement_range r.val m hm
    simpa using this

theorem recStep_mergeTables (t u : Table) (r : StationRecord) :
    recStep (mergeTables t u) r = mergeTables t (recStep u r) := by
  have h := recStep_val_range r
  exact tableAdd_mergeTables t u r.name _ h.1 h.2

theorem foldl_recStep_mergeTables (B : List StationRecord) :
    ∀ (t u : Table), B.foldl recStep (mergeTables t u) = mergeTables t (B.foldl recStep u) := by
  induction B with
  | nil => intro t u; rfl
  | cons r rest ih =>
    intro t u
    rw [List.foldl_cons, List.foldl_cons, recStep_mergeTables, ih]

/-- Scanning a whole well-formed record stream from an empty table. -/
def recordFold (rs : List StationRecord) : Table := rs.foldl recStep emptyTable

theorem recordFold_append (A B : List StationRecord) :
    recordFold (A ++ B) = mergeTables (recordFold A) (recordFold B) := by
  show (A ++ B).foldl recStep emptyTable = _
  rw [List.foldl_append]
  have h := foldl_recStep_mergeTables B (A.foldl recStep emptyTable) emptyTable
  rw [mergeTables_empty_right] at h
  exact h

theorem encodeRecord_no_inner_newline (r : StationRecord)
    (h : validRecord r = true) :
    ∀ j, j < (encodeRecord r).length - 1 → (encodeRecord r).getD j 0 ≠ 10 := by
  obtain ⟨_, hn10, hv10, _⟩ := validRecord_facts r h
  intro j hj
  rw [encodeRecord_length] at hj
  by_cases hjn : j < r.name.length
  · rw [encodeRecord, List.getD_append _ _ _ _ hjn]
    have hmem : r.name.getD j 0 ∈ r.name := by
      rw [List.getD_eq_getElem _ _ hjn]
      exact List.getElem_mem _
    exact hn10 _ hmem
  · have hge : r.name.length ≤ j := by omega
    rw [encodeRecord, List.getD_append_right _ _ _ _ hge]
    cases hi : j - r.name.length with
    | zero => simp
    | succ i =>
      have hiv : i < r.val.length := by omega
      show (r.val ++ [10]).getD i 0 ≠ 10
      rw [List.getD_append _ _ _ _ hiv]
      have hmem : r.val.getD i 0 ∈ r.val := by
        rw [List.getD_eq_getElem _ _ hiv]
        exact List.getElem_mem _
      exact hv10 _ hmem

/-- A position that is the end of the data or immediately after a newline
splits a well-formed record stream into two whole record streams. -/
theorem split_at_boundary :
    ∀ (rs : List StationRecord) (l : List Nat) (p : Nat),
      l = encodeRecords rs → (∀ r ∈ rs, validRecord r = true) → p ≤ l.length →
      (p = l.length ∨ (0 < p ∧ l.getD (p - 1) 0 = 10)) →
      ∃ rs1 rs2, rs = rs1 ++ rs2 ∧ encodeRecords rs1 = l.take p
        ∧ encodeRecords rs2 = l.drop p := by
  intro rs
  induction rs with
  | nil =>
    intro l p hl _ hp _
    rw [hl, encodeRecords_nil] at hp ⊢
    simp only [List.length_nil] at hp
    have : p = 0 := by omega
    subst this
    exact ⟨[], [], rfl, rfl, rfl⟩
  | cons r rest ih =>
    intro l p hl hvalid hple hbound
    have hvr := hvalid r (by simp)
    rw [encodeRecords_cons] at hl
    have hlen : l.length = (encodeRecord r).length + (encodeRecords rest).length := by
      rw [hl, List.length_append]
    have hn1 : 2 ≤ (encodeRecord r).length := by
      rw [encodeRecord_length]; omega
    by_cases hsmall : p < (encodeRecord r).length
    · -- a boundary strictly inside the first record is impossible
      rcases hbound with hend | ⟨hpos, hnl⟩
      · omega
      · exfalso
        have hgd : l.getD (p - 1) 0 = (encodeRecord r).getD (p - 1) 0 := by
          rw [hl]
          exact List.getD_append _ _ _ _ (by omega)
        exact encodeRecord_no_inner_newline r hvr (p - 1) (by omega) (by rw [← hgd]; exact hnl)
    · have hge : (encodeRecord r).length ≤ p := by omega
      by_cases hexact : p = (encodeRecord r).length
      · refine ⟨[r], rest, rfl, ?_, ?_⟩
        · rw [hl, hexact, List.take_left]
          simp [encodeRecords]
        · rw [hl, hexact, List.drop_left]
      · -- recurse into the tail stream
        have hbound2 : p - (encodeRecord r).length = (encodeRecords rest).length ∨
            (0 < p - (encodeRecord r).length ∧
              (encodeRecords rest).getD (p - (encodeRecord r).length - 1) 0 = 10) := by
          rcases hbound with hend | ⟨hpos, hnl⟩
          · left; omega
          · right
            refine ⟨by omega, ?_⟩
            have hgd : l.getD (p - 1) 0
                = (encodeRecords rest).getD (p - 1 - (encodeRecord r).length) 0 := by
              rw [hl]
              exact List.getD_append_right _ _ _ _ (by omega)
            have harr : p - 1 - (encodeRecord r).length = p - (encodeRecord r).length - 1 := by
              omega
            rw [← harr, ← hgd]
            exact hnl
        obtain ⟨a, b, hab, ha, hb⟩ := ih (encodeRecords rest) (p - (encodeRecord r).length)
          rfl (fun x hx => hvalid x (by simp [hx])) (by omega) hbound2
        refine ⟨r :: a, b, by rw [hab]; rfl, ?_, ?_⟩
        · rw [encodeRecords_cons, ha, hl]
          have hsplit : p = (encodeRecord r).length + (p - (encodeRecord r).length) := by
            omega
          rw [hsplit, List.take_append]
          have harr : (encodeRecord r).length + (p - (encodeRecord r).length)
              - (encodeRecord r).length = p - (encodeRecord r).length := by omega
          rw [harr]
        · rw [hb, hl]
          have hsplit : p = (encodeRecord r).length + (p - (encodeRecord r).length) := by
            omega
          rw [hsplit, List.drop_append]
          have harr : (encodeRecord r).length + (p - (encodeRecord r).length)
              - (encodeRecord r).length = p - (encodeRecord r).length := by omega
          rw [harr]

/-- Folding the per-partition scans with `mergeOpt` over the partition chain
computes the whole-stream table. -/
theorem partitionEnds_scan_fold (data : List Nat) (psize : Nat) :
    ∀ (k start : Nat) (rs : List StationRecord) (t : Table),
      start ≤ data.length →
      data.drop start = encodeRecords rs →
      (∀ r ∈ rs, validRecord r = true) →
      data.length ≤ start + k * psize + (k - 1) →
      List.foldl mergeOpt (some t)
        ((partitionEnds data psize k start).map
          (fun p => thread_runner ((data.drop p.1).take (p.2 - p.1))))
        = some (mergeTables t (recordFold rs)) := by
  intro k
  induction k with
  | zero =>
    intro start rs t h1 h2 h3 h4
    simp only [Nat.zero_mul, Nat.zero_sub, Nat.add_zero] at h4
    have hstart : start = data.length := by omega
    have hnil : data.drop start = [] := List.drop_eq_nil_of_le (by omega)
    rw [hnil] at h2
    have : rs = [] := encodeRecords_eq_nil rs h2.symm
    subst this
    show some t = some (mergeTables t (recordFold []))
    rw [show recordFold [] = emptyTable from rfl, mergeTables_empty_right]
  | succ m ih =>
    intro start rs t h1 h2 h3 h4
    set c := Min.min (start + psize) data.length with hc
    set e := scanNewlineEnd data c with he
    have hcle : c ≤ data.length := Nat.min_le_right _ _
    have hcs : start ≤ c := by
      have : start ≤ start + psize := Nat.le_add_right _ _
      simp only [hc]
      omega
    have hele : e ≤ data.length := scanNewlineEnd_le_len data c hcle
    have hse : start ≤ e := Nat.le_trans hcs (scanNewlineEnd_ge data c)
    have hnext : data.length ≤ e + m * psize + (m - 1) := by
      by_cases hclamp : start + psize < data.length
      · have hceq : c = start + psize := by simp only [hc]; omega
        have hgt : c + 1 ≤ e := scanNewlineEnd_gt data c (by omega)
        have hexp : (m + 1) * psize = m * psize + psize := Nat.succ_mul m psize
        rw [hexp] at h4
        omega
      · have hceq : c = data.length := by simp only [hc]; omega
        have : c ≤ e := scanNewlineEnd_ge data c
        omega
    -- split the record stream at the relative boundary position
    have hldrop : (data.drop start).length = data.length - start :=
      List.length_drop start data
    have hbound : e - start = (data.drop start).length ∨
        (0 < e - start ∧ (data.drop start).getD (e - start - 1) 0 = 10) := by
      rcases scanNewlineEnd_spec data c hcle with hlen | ⟨hgt, hnl⟩
      · left
        rw [hldrop]
        rw [← he] at hlen
        omega
      · rw [← he] at hgt hnl
        right
        refine ⟨by omega, ?_⟩
        rw [getD_drop]
        have harr : start + (e - start - 1) = e - 1 := by omega
        rw [harr]
        exact hnl
    obtain ⟨rs1, rs2, hsplit, henc1, henc2⟩ := split_at_boundary rs (data.drop start)
      (e - start) h2.symm.symm h3 (by omega) hbound
    -- scanning the slice yields the fold over its records
    have hslice : thread_runner ((data.drop start).take (e - start))
        = some (recordFold rs1) := by
      rw [thread_runner]
      have hlen1 : ((data.drop start).take (e - start)).length ≤
          ((data.drop start).take (e - start)).length := Nat.le_refl _
      have hdrop0 : ((data.drop start).take (e - start)).drop 0
          = encodeRecords rs1 := by
        rw [List.drop_zero, ← henc1]
      exact scanSlice_records _ rs1 emptyTable 0 (by omega) hdrop0
        (fun x hx => h3 x (by rw [hsplit]; exact List.mem_append_left _ hx))
    -- the tail of the chain
    have hdrope : data.drop e = encodeRecords rs2 := by
      rw [henc2, List.drop_drop]
      have harr : start + (e - start) = e := by omega
      rw [harr]
    show List.foldl mergeOpt (mergeOpt (some t) (thread_runner _)) _ = _
    rw [hslice]
    show List.foldl mergeOpt (some (mergeTables t (recordFold rs1))) _ = _
    rw [ih e rs2 (mergeTables t (recordFold rs1)) hele hdrope
      (fun x hx => h3 x (by rw [hsplit]; exact List.mem_append_right _ hx)) hnext]
    rw [mergeTables_assoc, ← recordFold_append, ← hsplit]

/-!
## Iteration count of the scanner loop (termination, C10)
-/

/-- Number of iterations executed by the record loop of `thread_runner`
(a panicking iteration counts as its final one). -/
def scanStepsAux (data : List Nat) : Nat → Nat → Nat
  | 0, _ => 0
  | fuel + 1, pos =>
    if pos < data.length then
      (if findByte data 59 pos + 1 ≤ data.length then
        (match parse_measurement ((data.drop (findByte data 59 pos + 1)).take
            (findByte data 10 (findByte data 59 pos + 1) - (findByte data 59 pos + 1))) with
         | none => 1
         | some _ =>
             1 + scanStepsAux data fuel (findByte data 10 (findByte data 59 pos + 1) + 1))
      else 1)
    else 0

def scanSteps (data : List Nat) (pos : Nat) : Nat :=
  scanStepsAux data (data.length - pos) pos

/-- The cursor advances at least two positions per iteration, so twice the
number of iterations is bounded by the slice length plus one. -/
theorem scanStepsAux_bound (data : List Nat) :
    ∀ fuel pos, 2 * scanStepsAux data fuel pos ≤ data.length + 1 - pos := by
  intro fuel
  induction fuel with
  | zero => intro pos; simp [scanStepsAux]
  | succ g ih =>
    intro pos
    show 2 * (if pos < data.length then _ else 0) ≤ data.length + 1 - pos
    by_cases hpos : pos < data.length
    · rw [if_pos hpos]
      have hne := findByte_ge data 59 pos
      have hve := findByte_ge data 10 (findByte data 59 pos + 1)
      by_cases hvs : findByte data 59 pos + 1 ≤ data.length
      · rw [if_pos hvs]
        cases hm : parse_measurement ((data.drop (findByte data 59 pos + 1)).take
            (findByte data 10 (findByte data 59 pos + 1) - (findByte data 59 pos + 1))) with
        | none =>
          show 2 * 1 ≤ data.length + 1 - pos
          omega
        | some m =>
          show 2 * (1 + scanStepsAux data g (findByte data 10 (findByte data 59 pos + 1) + 1))
            ≤ data.length + 1 - pos
          have := ih (findByte data 10 (findByte data 59 pos + 1) + 1)
          omega
      · rw [if_neg hvs]
        omega
    · rw [if_neg hpos]
      omega

theorem scanSteps_le (data : List Nat) : scanSteps data 0 ≤ data.length := by
  have := scanStepsAux_bound data data.length 0
  rw [scanSteps, Nat.sub_zero]
  omega

/-!
## Reachable accumulators (C9)
-/

/-- Accumulators reachable from `WeatherStation::new` by `add_measurement`
(of `i16` measurements) and `merge`, together with the exact (unwrapped)
number of underlying measurements. -/
inductive ReachableCount : WeatherStation → Nat → Prop where
  | base : ReachableCount WeatherStation.new 0
  | add (ws : WeatherStation) (c : Nat) (m : Int) :
      ReachableCount ws c → -32768 ≤ m → m ≤ 32767 →
      ReachableCount (ws.add_measurement m) (c + 1)
  | merge (a : WeatherStation) (ca : Nat) (b : WeatherStation) (cb : Nat) :
      ReachableCount a ca → ReachableCount b cb →
      ReachableCount (a.merge b) (ca + cb)

theorem reachable_invariant (ws : WeatherStation) (c : Nat)
    (h : ReachableCount ws c) :
    ws.count = c % U32 ∧ (c = 0 → ws = WeatherStation.new) := by
  induction h with
  | base => exact ⟨rfl, fun _ => rfl⟩
  | add ws c m _ _ _ ih =>
    constructor
    · show (ws.count + 1) % U32 = (c + 1) % U32
      rw [ih.1]
      simp only [U32]
      omega
    · intro h0
      omega
  | merge a ca b cb _ _ iha ihb =>
    constructor
    · show (a.count + b.count) % U32 = (ca + cb) % U32
      rw [iha.1, ihb.1]
      simp only [U32]
      omega
    · intro h0
      have hca : ca = 0 := by omega
      have hcb : cb = 0 := by omega
      rw [iha.2 hca, ihb.2 hcb]
      show WeatherStation.new.merge WeatherStation.new = WeatherStation.new
      decide

/-- Repeated self-merge, doubling the underlying measurement count. -/
def mergeTower : Nat → WeatherStation → WeatherStation
  | 0, s => s
  | n + 1, s => mergeTower n (s.merge s)

theorem mergeTower_reachable (n : Nat) :
    ∀ (s : WeatherStation) (c : Nat), ReachableCount s c →
      ReachableCount (mergeTower n s) (2 ^ n * c) := by
  induction n with
  | zero => intro s c h; simpa using h
  | succ m ih =>
    intro s c h
    have hm := ReachableCount.merge s c s c h h
    have := ih (s.merge s) (c + c) hm
    have harr : 2 ^ m * (c + c) = 2 ^ (m + 1) * c := by
      rw [Nat.pow_succ]
      ring
    rw [harr] at this
    exact this

/-!
## The accumulator invariant `count * min ≤ sum ≤ count * max` (C7)
-/

/-- Invariant tying an accumulator to its exact number of measurements `k`:
all fields exact (no wrap has occurred), min/max in `i16` range, and the sum
bracketed by `k * min` and `k * max`. -/
def WSInv (ws : WeatherStation) (k : Nat) : Prop :=
  ws.count = k ∧ -32768 ≤ ws.min ∧ ws.min ≤ 32767 ∧ -32768 ≤ ws.max ∧ ws.max ≤ 32767 ∧
    ws.min * (k : Int) ≤ ws.sum ∧ ws.sum ≤ ws.max * (k : Int) ∧
    (1 ≤ k → ws.min ≤ ws.max)

theorem wsInv_new : WSInv WeatherStation.new 0 := by
  refine ⟨rfl, by decide, by decide, by decide, by decide, by decide, by decide, ?_⟩
  intro h
  omega

theorem wsInv_add (ws : WeatherStation) (k : Nat) (m : Int)
    (h : WSInv ws k) (h1 : -32768 ≤ m) (h2 : m ≤ 32767) (hk : k + 1 ≤ 65535) :
    WSInv (ws.add_measurement m) (k + 1) := by
  obtain ⟨hc, hmin1, hmin2, hmax1, hmax2, hlo, hhi, hmm⟩ := h
  have hkc : ((k : Int)) ≤ 65534 := by
    have : (k : Nat) ≤ 65534 := by omega
    exact_mod_cast this
  have hknn : (0 : Int) ≤ (k : Int) := Int.natCast_nonneg k
  have hsumlo : -2147483648 ≤ ws.sum + m := by nlinarith
  have hsumhi : ws.sum + m ≤ 2147483647 := by nlinarith
  refine ⟨?_, ?_, ?_, ?_, ?_, ?_, ?_, ?_⟩
  · show (ws.count + 1) % U32 = k + 1
    rw [hc]
    simp only [U32]
    omega
  · show -32768 ≤ Min.min ws.min m
    simp only [le_min_iff]
    exact ⟨hmin1, h1⟩
  · show Min.min ws.min m ≤ 32767
    exact le_trans (min_le_left _ _) hmin2
  · show -32768 ≤ Max.max ws.max m
    exact le_trans hmax1 (le_max_left _ _)
  · show Max.max ws.max m ≤ 32767
    simp only [max_le_iff]
    exact ⟨hmax2, h2⟩
  · show Min.min ws.min m * ((k : Int) + 1) ≤ wrap32 (ws.sum + m)
    rw [wrap32_eq_self _ hsumlo hsumhi]
    have ha : Min.min ws.min m ≤ ws.min := min_le_left _ _
    have hb : Min.min ws.min m ≤ m := min_le_right _ _
    nlinarith
  · show wrap32 (ws.sum + m) ≤ Max.max ws.max m * ((k : Int) + 1)
    rw [wrap32_eq_self _ hsumlo hsumhi]
    have ha : ws.max ≤ Max.max ws.max m := le_max_left _ _
    have hb : m ≤ Max.max ws.max m := le_max_right _ _
    nlinarith
  · intro _
    exact le_trans (min_le_right _ _) (le_max_right _ _)

theorem wsInv_foldl (xs : List Int) :
    ∀ (ws : WeatherStation) (k : Nat), WSInv ws k →
      (∀ v ∈ xs, -32768 ≤ v ∧ v ≤ 32767) → k + xs.length ≤ 65535 →
      WSInv (List.foldl WeatherStation.add_measurement ws xs) (k + xs.length) := by
  induction xs with
  | nil => intro ws k h _ _; simpa using h
  | cons x t ih =>
    intro ws k h hr hk
    have hx := hr x (by simp)
    have hstep := wsInv_add ws k x h hx.1 hx.2 (by simp at hk; omega)
    have := ih (ws.add_measurement x) (k + 1) hstep
      (fun v hv => hr v (by simp [hv])) (by simp at hk; omega)
    rw [List.foldl_cons]
    have harr : k + (x :: t).length = k + 1 + t.length := by simp; omega
    rw [harr]
    exact this

/-!
## Fold/merge algebra for C4
-/

theorem foldl_min_le_init (xs : List Int) : ∀ a : Int, xs.foldl Min.min a ≤ a := by
  induction xs with
  | nil => intro a; exact le_refl a
  | cons x t ih =>
    intro a
    exact le_trans (ih (Min.min a x)) (min_le_left _ _)

theorem foldl_max_ge_init (xs : List Int) : ∀ a : Int, a ≤ xs.foldl Max.max a := by
  induction xs with
  | nil => intro a; exact le_refl a
  | cons x t ih =>
    intro a
    exact le_trans (le_max_left _ _) (ih (Max.max a x))

theorem foldl_min_split (xs : List Int) :
    ∀ a : Int, a ≤ 32767 → (∀ v ∈ xs, v ≤ 32767) →
      xs.foldl Min.min a = Min.min a (xs.foldl Min.min 32767) := by
  induction xs with
  | nil => intro a h _; simp [min_eq_left h]
  | cons x t ih =>
    intro a ha hv
    have hx := hv x (by simp)
    have hvt : ∀ v ∈ t, v ≤ 32767 := fun v hv2 => hv v (by simp [hv2])
    rw [List.foldl_cons, List.foldl_cons, ih (Min.min a x) (le_trans (min_le_left _ _) ha) hvt,
      ih (Min.min 32767 x) (min_le_left _ _) hvt, min_eq_right hx, min_assoc]

theorem foldl_max_split (xs : List Int) :
    ∀ a : Int, -32768 ≤ a → (∀ v ∈ xs, -32768 ≤ v) →
      xs.foldl Max.max a = Max.max a (xs.foldl Max.max (-32768)) := by
  induction xs with
  | nil => intro a h _; simp [max_eq_left h]
  | cons x t ih =>
    intro a ha hv
    have hx := hv x (by simp)
    have hvt : ∀ v ∈ t, -32768 ≤ v := fun v hv2 => hv v (by simp [hv2])
    rw [List.foldl_cons, List.foldl_cons, ih (Max.max a x) (le_trans ha (le_max_left _ _)) hvt,
      ih (Max.max (-32768) x) (le_max_left _ _) hvt, max_eq_right hx, max_assoc]

theorem weatherStation_eq_of_fields (a b : WeatherStation)
    (h1 : a.min = b.min) (h2 : a.max = b.max) (h3 : a.sum = b.sum)
    (h4 : a.count = b.count) : a = b := by
  cases a
  cases b
  simp only [WeatherStation.mk.injEq]
  exact ⟨h1, h2, h3, h4⟩

theorem merge_foldl_append (xs ys : List Int)
    (_hx : ∀ v ∈ xs, -32768 ≤ v ∧ v ≤ 32767)
    (hy : ∀ v ∈ ys, -32768 ≤ v ∧ v ≤ 32767) :
    (List.foldl WeatherStation.add_measurement WeatherStation.new xs).merge
        (List.foldl WeatherStation.add_measurement WeatherStation.new ys)
      = List.foldl WeatherStation.add_measurement WeatherStation.new (xs ++ ys) := by
  have hsx := WeatherStation.sum_foldl xs WeatherStation.new 0 (by decide)
  have hsy := WeatherStation.sum_foldl ys WeatherStation.new 0 (by decide)
  have hsxy := WeatherStation.sum_foldl (xs ++ ys) WeatherStation.new 0 (by decide)
  have hcx := WeatherStation.count_foldl xs WeatherStation.new 0 (by simp [WeatherStation.new, U32])
  have hcy := WeatherStation.count_foldl ys WeatherStation.new 0 (by simp [WeatherStation.new, U32])
  have hcxy := WeatherStation.count_foldl (xs ++ ys) WeatherStation.new 0
    (by simp [WeatherStation.new, U32])
  have hmx := WeatherStation.min_foldl xs WeatherStation.new
  have hmy := WeatherStation.min_foldl ys WeatherStation.new
  have hmxy := WeatherStation.min_foldl (xs ++ ys) WeatherStation.new
  have hMx := WeatherStation.max_foldl xs WeatherStation.new
  have hMy := WeatherStation.max_foldl ys WeatherStation.new
  have hMxy := WeatherStation.max_foldl (xs ++ ys) WeatherStation.new
  have hminnew : WeatherStation.new.min = 32767 := rfl
  have hmaxnew : WeatherStation.new.max = -32768 := rfl
  apply weatherStation_eq_of_fields
  · -- min field
    show Min.min _ _ = _
    rw [hmx, hmy, hmxy, hminnew, List.foldl_append,
      foldl_min_split ys _ (foldl_min_le_init xs 32767) (fun v hv => (hy v hv).2)]
  · -- max field
    show Max.max _ _ = _
    rw [hMx, hMy, hMxy, hmaxnew, List.foldl_append,
      foldl_max_split ys _ (foldl_max_ge_init xs (-32768)) (fun v hv => (hy v hv).1)]
  · -- sum field
    show wrap32 _ = _
    rw [hsx, hsy, hsxy, Int.zero_add, Int.zero_add, Int.zero_add,
      wrap32_add_left, wrap32_add_right, intSum_append]
  · -- count field
    show (_ + _) % U32 = _
    rw [hcx, hcy, hcxy, List.length_append]
    simp only [U32]
    omega

theorem add_measurement_right_comm (ws : WeatherStation) (u v : Int) :
    (ws.add_measurement u).add_measurement v = (ws.add_measurement v).add_measurement u := by
  simp only [WeatherStation.add_measurement, WeatherStation.mk.injEq]
  refine ⟨?_, ?_, ?_, trivial⟩
  · rw [min_assoc, min_comm u v, ← min_assoc]
  · rw [max_assoc, max_comm u v, ← max_assoc]
  · rw [wrap32_add_left, wrap32_add_left]
    have h : ws.sum + u + v = ws.sum + v + u := by ring
    rw [h]

theorem foldl_add_perm (xs ys : List Int) (p : xs.Perm ys) :
    ∀ ws : WeatherStation,
      List.foldl WeatherStation.add_measurement ws xs
        = List.foldl WeatherStation.add_measurement ws ys := by
  induction p with
  | nil => intro ws; rfl
  | cons x _ ih => intro ws; rw [List.foldl_cons, List.foldl_cons, ih]
  | swap x y l =>
    intro ws
    rw [List.foldl_cons, List.foldl_cons, List.foldl_cons, List.foldl_cons,
      add_measurement_right_comm]
  | trans _ _ ih1 ih2 => intro ws; rw [ih1, ih2]

/-!
## Remaining helpers for the claim theorems
-/

theorem foldl_min_replicate (c : Int) :
    ∀ (n : Nat) (a : Int), (List.replicate n c).foldl Min.min a
      = if n = 0 then a else Min.min a c := by
  intro n
  induction n with
  | zero => intro a; simp
  | succ m ih =>
    intro a
    rw [List.replicate_succ, List.foldl_cons, ih (Min.min a c)]
    by_cases hm : m = 0
    · simp [hm]
    · rw [if_neg hm, if_neg (by omega), min_assoc, min_self]

theorem div_fill_cond (len n : Nat) (h : 1 ≤ n) :
    len ≤ 0 + n * (len / n) + (n - 1) := by
  have hdm : n * (len / n) + len % n = len := Nat.div_add_mod len n
  have hmod : len % n < n := Nat.mod_lt _ (by omega)
  have hmod2 : len % n ≤ n - 1 := Nat.le_pred_of_lt hmod
  calc len = n * (len / n) + len % n := hdm.symm
    _ ≤ n * (len / n) + (n - 1) := Nat.add_le_add_left hmod2 _
    _ = 0 + n * (len / n) + (n - 1) := by rw [Nat.zero_add]

/-- `NUM_THREADS` from `src/main.rs`. -/
def NUM_THREADS : Nat := 4

/-- The aggregation `main` actually performs: it scans only `partitions[0]`
of the `NUM_THREADS`-way partition and prints the stations of that table. -/
def mainStations (data : List Nat) : Option Table :=
  thread_runner ((partition_into_slices data NUM_THREADS).getD 0 [])

/-- `"A;1.0\nB;2.0\nC;3.0\nD;4.0\n"` as bytes. -/
def fourStationInput : List Nat :=
  [65, 59, 49, 46, 48, 10, 66, 59, 50, 46, 48, 10,
   67, 59, 51, 46, 48, 10, 68, 59, 52, 46, 48, 10]

/-- `min as f32 / 10.0` (`WeatherStation::min`), idealised over `ℚ`. -/
def minDisplay (ws : WeatherStation) : ℚ := (ws.min : ℚ) / 10

/-- `max as f32 / 10.0` (`WeatherStation::max`), idealised over `ℚ`. -/
def maxDisplay (ws : WeatherStation) : ℚ := (ws.max : ℚ) / 10

/-- `sum as f64 / count as f64 / 10.0` (`WeatherStation::mean`), idealised
over `ℚ`. -/
def meanDisplay (ws : WeatherStation) : ℚ := (ws.sum : ℚ) / (ws.count : ℚ) / 10

/-!
## Claim theorems
-/

/-- C1: for every mapped content and every partition count `n ≥ 1`, the
concatenation of the `n` slices returned by `partition_into_slices n` equals
the full mapped byte content exactly. -/
theorem claim_C1_partition_concat (data : List Nat) (n : Nat) (h : 1 ≤ n) :
    (partition_into_slices data n).flatten = data := by
  rw [partition_into_slices,
    partitionEnds_flatten data (data.length / n) n 0 (Nat.zero_le _)
      (div_fill_cond data.length n h)]
  exact List.drop_zero data

/-- Witness for C1 at a concrete input. -/
theorem claim_C1_witness :
    (partition_into_slices [97, 10, 98, 10] 2).flatten = [97, 10, 98, 10] :=
  claim_C1_partition_concat [97, 10, 98, 10] 2 (by decide)

/-- C2: for well-formed input (a stream of whole `name;value` records) and any
`n ≥ 1`, scanning each slice with `thread_runner` and combining the partition
tables by per-key merge yields exactly the whole-input table, and the table
merge is commutative and associative (order independence). -/
theorem claim_C2_partition_merge_refinement (rs : List StationRecord)
    (data : List Nat) (n : Nat) (t u w : Table)
    (h1 : ∀ r ∈ rs, validRecord r = true) (h2 : data = encodeRecords rs)
    (h3 : 1 ≤ n) :
    List.foldl mergeOpt (some emptyTable)
        ((partition_into_slices data n).map thread_runner)
      = thread_runner data
    ∧ mergeTables t u = mergeTables u t
    ∧ mergeTables (mergeTables t u) w = mergeTables t (mergeTables u w) := by
  refine ⟨?_, mergeTables_comm t u, mergeTables_assoc t u w⟩
  have hwhole : thread_runner data = some (recordFold rs) := by
    rw [thread_runner]
    exact scanSlice_records data rs emptyTable 0 (Nat.zero_le _)
      (by rw [List.drop_zero]; exact h2) h1
  have hfold := partitionEnds_scan_fold data (data.length / n) n 0 rs emptyTable
    (Nat.zero_le _) (by rw [List.drop_zero]; exact h2) h1
    (div_fill_cond data.length n h3)
  rw [mergeTables_empty_left] at hfold
  rw [hwhole, partition_into_slices, List.map_map]
  exact hfold

/-- Witness for C2 at input `"A;1.0\nB;2.5\n"` with two partitions. -/
theorem claim_C2_witness :
    List.foldl mergeOpt (some emptyTable)
        ((partition_into_slices [65, 59, 49, 46, 48, 10, 66, 59, 50, 46, 53, 10] 2).map
          thread_runner)
      = thread_runner [65, 59, 49, 46, 48, 10, 66, 59, 50, 46, 53, 10]
    ∧ mergeTables emptyTable emptyTable = mergeTables emptyTable emptyTable
    ∧ mergeTables (mergeTables emptyTable emptyTable) emptyTable
        = mergeTables emptyTable (mergeTables emptyTable emptyTable) :=
  claim_C2_partition_merge_refinement
    [⟨[65], [49, 46, 48]⟩, ⟨[66], [50, 46, 53]⟩] _ 2
    emptyTable emptyTable emptyTable (by decide) rfl (by decide)

/-- C3: on every byte slice matching `'-'? digit+ '.' digit` whose denoted
value has magnitude at most 999.9, the parser returns exactly the value
scaled by ten (no overflow); in particular `"-123.4" ↦ -1234`,
`"123.4" ↦ 1234` and `"0.0" ↦ 0`. -/
theorem claim_C3_parse_grammar (neg : Bool) (ds : List Nat) (f : Nat)
    (h1 : ds ≠ []) (h2 : ∀ d ∈ ds, 48 ≤ d ∧ d ≤ 57) (h3 : 48 ≤ f) (h4 : f ≤ 57)
    (h5 : digitsVal ds * 10 + ((f : Int) - 48) ≤ 9999) :
    parse_measurement ((if neg then [45] else []) ++ (ds ++ [46, f]))
        = some ((if neg then (-1 : Int) else 1) * (digitsVal ds * 10 + ((f : Int) - 48)))
      ∧ parse_measurement [45, 49, 50, 51, 46, 52] = some (-1234)
      ∧ parse_measurement [49, 50, 51, 46, 52] = some 1234
      ∧ parse_measurement [48, 46, 48] = some 0 :=
  ⟨parse_measurement_spec neg ds f h1 h2 h3 h4 h5, by decide, by decide, by decide⟩

/-- Witness for C3 at `"-123.4"`. -/
theorem claim_C3_witness :
    parse_measurement ((if true then [45] else []) ++ ([49, 50, 51] ++ [46, 52]))
        = some ((if true then (-1 : Int) else 1)
            * (digitsVal [49, 50, 51] * 10 + ((52 : Int) - 48)))
      ∧ parse_measurement [45, 49, 50, 51, 46, 52] = some (-1234)
      ∧ parse_measurement [49, 50, 51, 46, 52] = some 1234
      ∧ parse_measurement [48, 46, 48] = some 0 :=
  claim_C3_parse_grammar true [49, 50, 51] 52 (by decide) (by decide) (by decide)
    (by decide) (by decide)

/-- C4: `merge` is commutative and associative, merging the accumulators of
two measurement lists equals accumulating their concatenation in one fresh
accumulator, and the result is invariant under reordering the measurements. -/
theorem claim_C4_merge_algebra (a b c : WeatherStation) (xs ys zs : List Int)
    (hx : ∀ v ∈ xs, -32768 ≤ v ∧ v ≤ 32767)
    (hy : ∀ v ∈ ys, -32768 ≤ v ∧ v ≤ 32767)
    (hp : (xs ++ ys).Perm zs) :
    a.merge b = b.merge a
      ∧ (a.merge b).merge c = a.merge (b.merge c)
      ∧ (List.foldl WeatherStation.add_measurement WeatherStation.new xs).merge
            (List.foldl WeatherStation.add_measurement WeatherStation.new ys)
          = List.foldl WeatherStation.add_measurement WeatherStation.new (xs ++ ys)
      ∧ List.foldl WeatherStation.add_measurement WeatherStation.new zs
          = List.foldl WeatherStation.add_measurement WeatherStation.new (xs ++ ys) :=
  ⟨WeatherStation.merge_comm a b, WeatherStation.merge_assoc a b c,
    merge_foldl_append xs ys hx hy,
    (foldl_add_perm (xs ++ ys) zs hp WeatherStation.new).symm⟩

/-- Witness for C4 at concrete accumulators and measurement lists. -/
theorem claim_C4_witness :
    (WeatherStation.mk 1 2 3 4).merge (WeatherStation.mk 5 6 7 8)
        = (WeatherStation.mk 5 6 7 8).merge (WeatherStation.mk 1 2 3 4)
      ∧ ((WeatherStation.mk 1 2 3 4).merge (WeatherStation.mk 5 6 7 8)).merge
            (WeatherStation.mk 9 9 9 9)
          = (WeatherStation.mk 1 2 3 4).merge
            ((WeatherStation.mk 5 6 7 8).merge (WeatherStation.mk 9 9 9 9))
      ∧ (List.foldl WeatherStation.add_measurement WeatherStation.new [100, -50]).merge
            (List.foldl WeatherStation.add_measurement WeatherStation.new [200])
          = List.foldl WeatherStation.add_measurement WeatherStation.new ([100, -50] ++ [200])
      ∧ List.foldl WeatherStation.add_measurement WeatherStation.new [200, 100, -50]
          = List.foldl WeatherStation.add_measurement WeatherStation.new ([100, -50] ++ [200]) :=
  claim_C4_merge_algebra (WeatherStation.mk 1 2 3 4) (WeatherStation.mk 5 6 7 8)
    (WeatherStation.mk 9 9 9 9) [100, -50] [200] [200, 100, -50]
    (by decide) (by decide) (by decide)

/-- C5 (amended): the slices are contiguous from offset 0 (each starts where
the previous ended), there are exactly `n` of them, and every slice — not
only the last — either ends immediately after a newline byte or ends at the
end of the mapped data. -/
theorem claim_C5_slice_boundaries_amended (data : List Nat) (n : Nat) (_h : 1 ≤ n) :
    (partitionEnds data (data.length / n) n 0).length = n
    ∧ chainFrom 0 (partitionEnds data (data.length / n) n 0) = true
    ∧ ∀ p ∈ partitionEnds data (data.length / n) n 0,
        p.1 ≤ p.2 ∧ p.2 ≤ data.length
          ∧ (p.2 = data.length ∨ (0 < p.2 ∧ data.getD (p.2 - 1) 0 = 10)) :=
  ⟨partitionEnds_length data (data.length / n) n 0,
    partitionEnds_chain data (data.length / n) n 0,
    partitionEnds_bounds data (data.length / n) n 0 (Nat.zero_le _)⟩

/-- Witness for the amended C5 at a concrete input. -/
theorem claim_C5_witness :
    (partitionEnds [97, 10, 98, 10] ([97, 10, 98, 10].length / 2) 2 0).length = 2
    ∧ chainFrom 0 (partitionEnds [97, 10, 98, 10] ([97, 10, 98, 10].length / 2) 2 0) = true
    ∧ ∀ p ∈ partitionEnds [97, 10, 98, 10] ([97, 10, 98, 10].length / 2) 2 0,
        p.1 ≤ p.2 ∧ p.2 ≤ [97, 10, 98, 10].length
          ∧ (p.2 = [97, 10, 98, 10].length
              ∨ (0 < p.2 ∧ [97, 10, 98, 10].getD (p.2 - 1) 0 = 10)) :=
  claim_C5_slice_boundaries_amended [97, 10, 98, 10] 2 (by decide)

/-- C5 as stated is false: on input `"ab"` (no newline) with `n = 2`, the
first of the two slices is not the last one, yet it ends at the end of the
mapped data (position 2) and not immediately after a newline byte
(`data[1] = 98 ≠ 10`). -/
theorem claim_C5_counterexample :
    partition_into_slices [97, 98] 2 = [[97, 98], []]
    ∧ partitionEnds [97, 98] ([97, 98].length / 2) 2 0 = [(0, 2), (2, 2)]
    ∧ 0 + 1 < (partitionEnds [97, 98] ([97, 98].length / 2) 2 0).length
    ∧ ¬(0 < ((partitionEnds [97, 98] ([97, 98].length / 2) 2 0).getD 0 (0, 0)).2
          ∧ [97, 98].getD
              (((partitionEnds [97, 98] ([97, 98].length / 2) 2 0).getD 0 (0, 0)).2 - 1) 0
            = 10) := by
  decide

/-- C6 (amended): the `i32` sum is exact (never overflows) for every sequence
of measurements of magnitude at most 9999 and of length at most 214769
(= ⌊(2³¹−1)/9999⌋); since hypotheses are closed under taking a list's front
part, no intermediate addition overflows either. -/
theorem claim_C6_sum_no_overflow_amended (xs : List Int)
    (h1 : ∀ v ∈ xs, -9999 ≤ v ∧ v ≤ 9999) (h2 : xs.length ≤ 214769) :
    (List.foldl WeatherStation.add_measurement WeatherStation.new xs).sum = intSum xs
      ∧ -2147483648 ≤ intSum xs ∧ intSum xs ≤ 2147483647 := by
  have hb := intSum_bound xs 9999 (by decide) h1
  have hlen : ((xs.length : Nat) : Int) ≤ 214769 := by exact_mod_cast h2
  have hlb : -2147483648 ≤ intSum xs := by nlinarith [hb.1, hb.2]
  have hub : intSum xs ≤ 2147483647 := by nlinarith [hb.1, hb.2]
  refine ⟨?_, hlb, hub⟩
  rw [WeatherStation.sum_foldl xs WeatherStation.new 0 (by decide), Int.zero_add]
  exact wrap32_eq_self _ hlb hub

/-- Witness for the amended C6. -/
theorem claim_C6_witness :
    (List.foldl WeatherStation.add_measurement WeatherStation.new [9999, -9999, 5]).sum
        = intSum [9999, -9999, 5]
      ∧ -2147483648 ≤ intSum [9999, -9999, 5] ∧ intSum [9999, -9999, 5] ≤ 2147483647 :=
  claim_C6_sum_no_overflow_amended [9999, -9999, 5] (by decide) (by decide)

/-- C6 as stated is false: 214770 measurements of scaled value 9999 (all of
magnitude ≤ 9999, far fewer than 10,000,000) overflow the `i32` sum — the
accumulated sum wraps and differs from the exact sum, ending up negative. -/
theorem claim_C6_counterexample :
    (∀ v ∈ List.replicate 214770 (9999 : Int), -9999 ≤ v ∧ v ≤ 9999)
    ∧ (List.replicate 214770 (9999 : Int)).length ≤ 10000000
    ∧ (List.foldl WeatherStation.add_measurement WeatherStation.new
          (List.replicate 214770 (9999 : Int))).sum
        ≠ intSum (List.replicate 214770 (9999 : Int))
    ∧ (List.foldl WeatherStation.add_measurement WeatherStation.new
          (List.replicate 214770 (9999 : Int))).sum < 0 := by
  have hs := WeatherStation.sum_foldl (List.replicate 214770 (9999 : Int))
    WeatherStation.new 0 (by decide)
  rw [intSum_replicate, Int.zero_add] at hs
  refine ⟨?_, by rw [List.length_replicate]; norm_num, ?_, ?_⟩
  · intro v hv
    have := List.eq_of_mem_replicate hv
    subst this
    exact ⟨by decide, by decide⟩
  · rw [hs, intSum_replicate]
    decide
  · rw [hs]
    decide

/-- C7 (amended): for every non-empty sequence of at most 65535 `i16`
measurements (so that neither sum nor count can wrap), the derived views of
the resulting accumulator satisfy `min_display ≤ mean ≤ max_display`
(fixed-point divisions idealised over `ℚ`). -/
theorem claim_C7_mean_bounds_amended (xs : List Int)
    (h1 : ∀ v ∈ xs, -32768 ≤ v ∧ v ≤ 32767) (h2 : 1 ≤ xs.length)
    (h3 : xs.length ≤ 65535) :
    minDisplay (List.foldl WeatherStation.add_measurement WeatherStation.new xs)
        ≤ meanDisplay (List.foldl WeatherStation.add_measurement WeatherStation.new xs)
      ∧ meanDisplay (List.foldl WeatherStation.add_measurement WeatherStation.new xs)
        ≤ maxDisplay (List.foldl WeatherStation.add_measurement WeatherStation.new xs) := by
  have hinv := wsInv_foldl xs WeatherStation.new 0 wsInv_new h1 (by omega)
  rw [Nat.zero_add] at hinv
  set ws := List.foldl WeatherStation.add_measurement WeatherStation.new xs with hws
  obtain ⟨hc, hmin1, hmin2, hmax1, hmax2, hlo, hhi, hmm⟩ := hinv
  have hkpos : (0 : ℚ) < ((ws.count : Nat) : ℚ) := by
    rw [hc]
    have : (0 : Nat) < xs.length := by omega
    exact_mod_cast this
  have h10 : (0 : ℚ) < 10 := by norm_num
  constructor
  · show (ws.min : ℚ) / 10 ≤ (ws.sum : ℚ) / ((ws.count : Nat) : ℚ) / 10
    rw [div_le_div_iff_of_pos_right h10, le_div_iff₀ hkpos]
    have : (ws.min : ℚ) * (((ws.count : Nat)) : ℚ) = ((ws.min * (ws.count : Int) : Int) : ℚ) := by
      push_cast
      ring
    rw [this]
    have hloc : ws.min * ((ws.count : Nat) : Int) ≤ ws.sum := by
      rw [hc]
      exact hlo
    exact_mod_cast hloc
  · show (ws.sum : ℚ) / ((ws.count : Nat) : ℚ) / 10 ≤ (ws.max : ℚ) / 10
    rw [div_le_div_iff_of_pos_right h10, div_le_iff₀ hkpos]
    have : (ws.max : ℚ) * (((ws.count : Nat)) : ℚ) = ((ws.max * (ws.count : Int) : Int) : ℚ) := by
      push_cast
      ring
    rw [this]
    have hhic : ws.sum ≤ ws.max * ((ws.count : Nat) : Int) := by
      rw [hc]
      exact hhi
    exact_mod_cast hhic

/-- Witness for the amended C7. -/
theorem claim_C7_witness :
    minDisplay (List.foldl WeatherStation.add_measurement WeatherStation.new [100, 305, -53])
        ≤ meanDisplay (List.foldl WeatherStation.add_measurement WeatherStation.new [100, 305, -53])
      ∧ meanDisplay (List.foldl WeatherStation.add_measurement WeatherStation.new [100, 305, -53])
        ≤ maxDisplay (List.foldl WeatherStation.add_measurement WeatherStation.new [100, 305, -53]) :=
  claim_C7_mean_bounds_amended [100, 305, -53] (by decide) (by decide) (by decide)

/-- C7 as stated is false: after 214770 measurements of 999.9 the `i32` sum
has wrapped to a negative value, so the mean is negative while `min_display`
is 999.9 — `min_display ≤ mean` fails. -/
theorem claim_C7_counterexample :
    ¬(minDisplay (List.foldl WeatherStation.add_measurement WeatherStation.new
          (List.replicate 214770 (9999 : Int)))
        ≤ meanDisplay (List.foldl WeatherStation.add_measurement WeatherStation.new
          (List.replicate 214770 (9999 : Int)))) := by
  have hmin : (List.foldl WeatherStation.add_measurement WeatherStation.new
      (List.replicate 214770 (9999 : Int))).min = 9999 := by
    rw [WeatherStation.min_foldl, foldl_min_replicate]
    decide
  have hsum : (List.foldl WeatherStation.add_measurement WeatherStation.new
      (List.replicate 214770 (9999 : Int))).sum = -2147482066 := by
    rw [WeatherStation.sum_foldl _ WeatherStation.new 0 (by decide),
      intSum_replicate, Int.zero_add]
    decide
  have hcount : (List.foldl WeatherStation.add_measurement WeatherStation.new
      (List.replicate 214770 (9999 : Int))).count = 214770 := by
    rw [WeatherStation.count_foldl _ WeatherStation.new 0
      (by simp [WeatherStation.new, U32]), List.length_replicate]
    decide
  rw [minDisplay, meanDisplay, hmin, hsum, hcount]
  norm_num

/-- C8: the error paths of `MmappedFile::new`/`main` aside, the claim that a
successful run prints one line per distinct station of the input file is
contradicted by the code: `main` scans only `partitions[0]`.  On
`"A;1.0\nB;2.0\nC;3.0\nD;4.0\n"` the first of the four partitions holds only
the `A` and `B` records, so station `"C"` (key `[67]`) is absent from the
table `main` prints although a full scan contains it. -/
theorem claim_C8_main_first_partition_only :
    ((mainStations fourStationInput).getD emptyTable) [67] = none
    ∧ ((thread_runner fourStationInput).getD emptyTable) [67]
        = some (WeatherStation.mk 30 30 30 1)
    ∧ ((mainStations fourStationInput).getD emptyTable) [65]
        = some (WeatherStation.mk 10 10 10 1) := by
  decide

/-- C9 (amended): `new` initialises `(min, max, sum, count)` to
`(i16::MAX, i16::MIN, 0, 0)`, and every accumulator reachable by
`add_measurement`/`merge` whose exact underlying measurement count is below
`2³²` (so the `u32` count cannot have wrapped) satisfies: `count = 0` implies
`min`/`max` still hold the sentinels. -/
theorem claim_C9_sentinel_invariant_amended (ws : WeatherStation) (c : Nat)
    (h : ReachableCount ws c) (hc : c < 4294967296) :
    WeatherStation.new.min = 32767 ∧ WeatherStation.new.max = -32768
    ∧ WeatherStation.new.sum = 0 ∧ WeatherStation.new.count = 0
    ∧ (ws.count = 0 → ws.min = 32767 ∧ ws.max = -32768) := by
  refine ⟨rfl, rfl, rfl, rfl, ?_⟩
  intro h0
  have hi := reachable_invariant ws c h
  have hmod : c % U32 = c := Nat.mod_eq_of_lt (by simpa [U32] using hc)
  have hc0 : c = 0 := by rw [hi.1, hmod] at h0; exact h0
  rw [hi.2 hc0]
  exact ⟨rfl, rfl⟩

/-- Witness for the amended C9. -/
theorem claim_C9_witness :
    WeatherStation.new.min = 32767 ∧ WeatherStation.new.max = -32768
    ∧ WeatherStation.new.sum = 0 ∧ WeatherStation.new.count = 0
    ∧ (WeatherStation.new.count = 0 →
        WeatherStation.new.min = 32767 ∧ WeatherStation.new.max = -32768) :=
  claim_C9_sentinel_invariant_amended WeatherStation.new 0 ReachableCount.base (by decide)

set_option maxRecDepth 4000 in
/-- C9 as stated is false: one measurement followed by 32 self-merges is a
reachable accumulator with 2³² underlying measurements; its `u32` count has
wrapped back to 0 while `min` and `max` are 0, not the sentinels. -/
theorem claim_C9_counterexample :
    ReachableCount (mergeTower 32 (WeatherStation.new.add_measurement 0)) 4294967296
    ∧ (mergeTower 32 (WeatherStation.new.add_measurement 0)).count = 0
    ∧ (mergeTower 32 (WeatherStation.new.add_measurement 0)).min ≠ 32767
    ∧ (mergeTower 32 (WeatherStation.new.add_measurement 0)).max ≠ -32768 := by
  refine ⟨?_, by decide, by decide, by decide⟩
  have h0 : ReachableCount (WeatherStation.new.add_measurement 0) 1 :=
    ReachableCount.add _ _ _ ReachableCount.base (by decide) (by decide)
  have h1 := mergeTower_reachable 32 _ 1 h0
  have h2 : 2 ^ 32 * 1 = 4294967296 := by norm_num
  rw [h2] at h1
  exact h1

/-- C10: the record loop of `thread_runner` terminates on every input byte
slice `d` whatsoever — the cursor advances by at least two per iteration, so
the iteration count is at most half the slice length (hence at most the slice
length) — and on a well-formed slice of whole `name;value` records, the last
optionally without its trailing newline, no indexing goes out of bounds (the
scan returns a table rather than panicking). -/
theorem claim_C10_scan_termination (d data : List Nat) (rs : List StationRecord)
    (lastRec : StationRecord)
    (h1 : ∀ r ∈ rs, validRecord r = true) (h2 : validRecord lastRec = true)
    (h3 : data = encodeRecords rs
      ∨ data = encodeRecords rs ++ (lastRec.name ++ 59 :: lastRec.val)) :
    2 * scanSteps d 0 ≤ d.length + 1
    ∧ scanSteps d 0 ≤ d.length
    ∧ (thread_runner data).isSome = true := by
  refine ⟨?_, scanSteps_le d, ?_⟩
  · have := scanStepsAux_bound d d.length 0
    rw [scanSteps, Nat.sub_zero]
    omega
  · rcases h3 with h3 | h3
    · rw [thread_runner, scanSlice_records data rs emptyTable 0 (Nat.zero_le _)
        (by rw [List.drop_zero]; exact h3) h1]
      rfl
    · rw [thread_runner]
      exact scanSlice_isSome_tail data rs lastRec emptyTable 0 (Nat.zero_le _)
        (by rw [List.drop_zero]; exact h3) h1 h2

/-- Witness for C10: the iteration bound on the garbage slice `";;"` and a
panic-free scan of `"A;0.0\nB;1.5"` whose last record has no trailing
newline. -/
theorem claim_C10_witness :
    2 * scanSteps [59, 59] 0 ≤ [59, 59].length + 1
    ∧ scanSteps [59, 59] 0 ≤ [59, 59].length
    ∧ (thread_runner [65, 59, 48, 46, 48, 10, 66, 59, 49, 46, 53]).isSome = true :=
  claim_C10_scan_termination [59, 59] [65, 59, 48, 46, 48, 10, 66, 59, 49, 46, 53]
    [⟨[65], [48, 46, 48]⟩] ⟨[66], [49, 46, 53]⟩
    (by decide) (by decide) (Or.inr (by decide))
